import Mathlib

/-!
Verification of the `async-inspect` observability engine.

This file gives a shallow embedding of the engine's core data model and
algorithms — the deadlock detector (`src/deadlock/mod.rs`), the relationship
graph (`src/graph.rs`), the profiler (`src/profile/mod.rs`) and the inspector
(`src/inspector/mod.rs`) — and proves the specification's claims about them.

Modelling conventions:
* `Duration` and `Instant` are nanosecond counts (`Nat`); `Instant.duration_since`
  is truncated subtraction, matching `std::time::Instant::duration_since`, which
  saturates at zero.
* Rust `HashMap`s are modelled as association lists.  Insertion overwrites the
  entry with the same key, as `HashMap::insert` does.  The model iterates in
  insertion order; claims proved below depend on iteration order only through
  set-like observations, except where nondeterministic iteration order is itself
  the point (see the ranking tie-break theorems).
* `Vec::sort` / `sort_by` are stable sorts; they are modelled by a stable
  insertion sort (`sortBy`) whose sortedness, permutation and stability
  properties are proved below.
-/

/-- Nanoseconds, the resolution of `std::time::Duration`. -/
abbrev Duration := Nat

/-- A point in time, in nanoseconds from an arbitrary origin
(`std::time::Instant`). -/
abbrev Instant := Nat

/-- `Duration::from_millis`. -/
def millis (n : Nat) : Duration := n * 1000000

/-- `Instant::duration_since`: elapsed time from `earlier` to `self`,
zero if `earlier` is later (the saturating behaviour of `std`). -/
def durationSince (self earlier : Instant) : Duration := self - earlier

/-- Task identifiers (`TaskId`), raw `u64` values. -/
abbrev TaskId := Nat

/-- Resource identifiers (`ResourceId`), raw `u64` values. -/
abbrev ResourceId := Nat

/-! ### Association lists standing in for `HashMap`

`lookupA` is `HashMap::get` (first entry with the key — keys are unique in any
map built by these operations), `insertOrReplace` is `HashMap::insert`,
`updateA` is `HashMap::get_mut` followed by a mutation, `removeA` is
`HashMap::remove`. -/

/-- Look up a key in an association list (`HashMap::get`). -/
def lookupA {α β : Type _} [DecidableEq α] : List (α × β) → α → Option β
  | [], _ => none
  | (k, v) :: rest, key => if key = k then some v else lookupA rest key

/-- Insert a binding, replacing an existing binding of the same key
(`HashMap::insert`). -/
def insertOrReplace {α β : Type _} [DecidableEq α] : List (α × β) → α → β → List (α × β)
  | [], k, v => [(k, v)]
  | (k', v') :: rest, k, v =>
      if k = k' then (k, v) :: rest else (k', v') :: insertOrReplace rest k v

/-- Apply `f` to the value bound to `k`, if any (`HashMap::get_mut`). -/
def updateA {α β : Type _} [DecidableEq α] : List (α × β) → α → (β → β) → List (α × β)
  | [], _, _ => []
  | (k', v') :: rest, k, f =>
      if k = k' then (k', f v') :: rest else (k', v') :: updateA rest k f

/-- Remove the binding of `k`, if any (`HashMap::remove`). -/
def removeA {α β : Type _} [DecidableEq α] : List (α × β) → α → List (α × β)
  | [], _ => []
  | (k', v') :: rest, k => if k = k' then rest else (k', v') :: removeA rest k

/-! ### A stable sort, the contract of `slice::sort` and `slice::sort_by` -/

/-- Insert `a` into `l` before the first element `b` with `le a b`
(the insertion step of a stable insertion sort). -/
def orderedInsertBy {α : Type _} (le : α → α → Bool) (a : α) : List α → List α
  | [] => [a]
  | b :: l => if le a b then a :: b :: l else b :: orderedInsertBy le a l

/-- Stable insertion sort.  Models Rust's stable `sort`/`sort_by`: the result
is sorted by `le` and elements that compare equal keep their input order. -/
def sortBy {α : Type _} (le : α → α → Bool) : List α → List α
  | [] => []
  | a :: l => orderedInsertBy le a (sortBy le l)

/-! ### Profiler data model (`src/profile/mod.rs`)

`Duration` arithmetic is exact at nanosecond resolution: `Duration / u32` in
`std` equals truncated division of the total nanosecond count, `Duration + Duration`
is addition, and `Duration::as_millis` is division by `10^6`.  The only
floating-point values in this module are `efficiency` and `std_dev`:
`efficiency` is modelled as the exact rational
`running_time / total_duration` (the `f64` computation rounds each operand to
53 bits; the ordering comparisons the code performs on it are modelled on the
exact value), and for `std_dev` the model records the exact population
variance `std_dev^2` in the field `variance`, since the square root is
irrational (`std_dev` is zero exactly when `variance` is zero). -/

/-- Per-task performance metrics (`TaskMetrics`). -/
structure TaskMetrics where
  task_id : TaskId
  name : String
  total_duration : Duration
  running_time : Duration
  blocked_time : Duration
  poll_count : Nat
  await_count : Nat
  await_durations : List Duration
  avg_poll_duration : Duration
  completed : Bool
deriving Repr, DecidableEq

/-- `TaskMetrics::new`. -/
def TaskMetrics.new (task_id : TaskId) (name : String) : TaskMetrics :=
  ⟨task_id, name, 0, 0, 0, 0, 0, [], 0, false⟩

/-- `TaskMetrics::efficiency`: `running_time / total_duration`, zero when
`total_duration` is zero. -/
def TaskMetrics.efficiency (m : TaskMetrics) : ℚ :=
  if m.total_duration = 0 then 0
  else (m.running_time : ℚ) / (m.total_duration : ℚ)

/-- `TaskMetrics::is_bottleneck`: `total_duration.as_millis() > threshold_ms`. -/
def TaskMetrics.is_bottleneck (m : TaskMetrics) (threshold_ms : Nat) : Bool :=
  decide (m.total_duration / 1000000 > threshold_ms)

/-- A frequently executed path (`HotPath`). -/
structure HotPath where
  path : String
  execution_count : Nat
  total_time : Duration
  avg_time : Duration
deriving Repr, DecidableEq

/-- Statistical summary of a list of durations (`DurationStats`), with the
`std_dev` field replaced by its exact square (see the section comment). -/
structure DurationStats where
  min : Duration
  max : Duration
  mean : Duration
  median : Duration
  p95 : Duration
  p99 : Duration
  variance : ℚ
  count : Nat
deriving Repr, DecidableEq

/-- `DurationStats::from_durations`.  The percentile indices
`(count as f64 * 0.95) as usize` and `(count as f64 * 0.99) as usize` equal
`count * 95 / 100` and `count * 99 / 100` in truncated natural division for
every `count` representable as `f64` (the rounding error of the `f64`
constant and product is far smaller than the distance of the exact product
from the nearest integer it could cross). -/
def DurationStats.from_durations (durations : List Duration) : DurationStats :=
  if durations = [] then ⟨0, 0, 0, 0, 0, 0, 0, 0⟩ else
  let ds := sortBy (fun a b => decide (a ≤ b)) durations
  let count := ds.length
  let sum := ds.sum
  let mean := sum / count
  let median :=
    if count % 2 = 0 then (ds.getD (count / 2 - 1) 0 + ds.getD (count / 2) 0) / 2
    else ds.getD (count / 2) 0
  let p95_idx := count * 95 / 100
  let p99_idx := count * 99 / 100
  let variance :=
    ((ds.map (fun d => ((d : ℚ) / 1000000000 - (mean : ℚ) / 1000000000) ^ 2)).sum)
      / (count : ℚ)
  { min := ds.headI
    max := ds.getLastD 0
    mean := mean
    median := median
    p95 := ds.getD (Nat.min p95_idx (count - 1)) 0
    p99 := ds.getD (Nat.min p99_idx (count - 1)) 0
    variance := variance
    count := count }

/-! The `Profiler` ranking queries iterate over the values of the `HashMap`s
`task_metrics` and `hot_paths`.  They are modelled as functions of the value
sequence in the map's iteration order; that order is unspecified by
`HashMap` and in particular is not the insertion (registration) order. -/

/-- `Profiler::slowest_tasks`: stable sort by descending `total_duration`
(`sort_by(|a, b| b.total_duration.cmp(&a.total_duration))`), then truncate. -/
def slowest_tasks (metrics : List TaskMetrics) (count : Nat) : List TaskMetrics :=
  (sortBy (fun a b => decide (b.total_duration ≤ a.total_duration)) metrics).take count

/-- `Profiler::busiest_tasks`: stable sort by descending `poll_count`, then
truncate. -/
def busiest_tasks (metrics : List TaskMetrics) (count : Nat) : List TaskMetrics :=
  (sortBy (fun a b => decide (b.poll_count ≤ a.poll_count)) metrics).take count

/-- `Profiler::least_efficient_tasks`: stable sort by ascending `efficiency`
(`partial_cmp` never returns `None` here: efficiencies are quotients of
nonnegative finite values, never NaN), then truncate. -/
def least_efficient_tasks (metrics : List TaskMetrics) (count : Nat) : List TaskMetrics :=
  (sortBy (fun a b => decide (a.efficiency ≤ b.efficiency)) metrics).take count

/-- `Profiler::get_hot_paths`: stable sort by descending `execution_count`
(no truncation). -/
def get_hot_paths (paths : List HotPath) : List HotPath :=
  sortBy (fun a b => decide (b.execution_count ≤ a.execution_count)) paths

/-- `Profiler::identify_bottlenecks`: filter by the bottleneck threshold. -/
def identify_bottlenecks (metrics : List TaskMetrics) (threshold_ms : Nat) :
    List TaskMetrics :=
  metrics.filter (fun m => m.is_bottleneck threshold_ms)

/-! ### Deadlock detector (`src/deadlock/mod.rs`) -/

/-- Remove every occurrence of `t` (`Vec::retain(|&x| x != t)`; also used for
`HashSet::remove`, whose element sets never hold duplicates). -/
def removeAll : List TaskId → TaskId → List TaskId
  | [], _ => []
  | x :: rest, t => if x = t then removeAll rest t else x :: removeAll rest t

/-- Type of a waitable resource (`ResourceKind`). -/
inductive ResourceKind where
  | Mutex
  | RwLock
  | Semaphore
  | Channel
  | Other (name : String)
deriving Repr, DecidableEq

/-- Information about a resource (`ResourceInfo`). -/
structure ResourceInfo where
  id : ResourceId
  kind : ResourceKind
  name : String
  holder : Option TaskId
  waiters : List TaskId
  address : Option Nat
deriving Repr, DecidableEq

/-- `ResourceInfo::new`: a fresh resource with no holder and no waiters.  The
unique `id` comes from a global atomic counter and is passed explicitly. -/
def ResourceInfo.new (id : ResourceId) (kind : ResourceKind) (name : String) :
    ResourceInfo :=
  ⟨id, kind, name, none, [], none⟩

/-- An edge in the wait-for graph (`WaitEdge`). -/
structure WaitEdge where
  task : TaskId
  resource : ResourceId
  holder : TaskId
deriving Repr, DecidableEq

/-- A cycle in the wait-for graph (`DeadlockCycle`). -/
structure DeadlockCycle where
  tasks : List TaskId
  resources : List ResourceId
  chain : List WaitEdge
deriving Repr, DecidableEq

/-- The detector's shared state (`DetectorState`): the resource registry, the
task → awaited-resource map, and the enabled flag. -/
structure DetectorState where
  resources : List (ResourceId × ResourceInfo)
  task_waiting : List (TaskId × ResourceId)
  enabled : Bool
deriving Repr, DecidableEq

/-- `DeadlockDetector::new`. -/
def DetectorState.new : DetectorState := ⟨[], [], true⟩

/-- `DeadlockDetector::register_resource`. -/
def register_resource (s : DetectorState) (info : ResourceInfo) : DetectorState :=
  if s.enabled then
    { s with resources := insertOrReplace s.resources info.id info }
  else s

/-- `DeadlockDetector::acquire`: drop the task's waiting-for entry; if the
resource is registered, record the task as holder and drop it from the
waiters list. -/
def acquire (s : DetectorState) (task_id : TaskId) (resource_id : ResourceId) :
    DetectorState :=
  if s.enabled then
    { s with
      task_waiting := removeA s.task_waiting task_id
      resources := updateA s.resources resource_id
        (fun r => { r with holder := some task_id
                           waiters := removeAll r.waiters task_id }) }
  else s

/-- `DeadlockDetector::release`: clear the holder only if `task_id` is the
current holder; otherwise leave the resource untouched. -/
def release (s : DetectorState) (task_id : TaskId) (resource_id : ResourceId) :
    DetectorState :=
  if s.enabled then
    { s with
      resources := updateA s.resources resource_id
        (fun r => if r.holder = some task_id then { r with holder := none } else r) }
  else s

/-- `DeadlockDetector::wait_for`: record (overwriting) the task's
waiting-for pointer and append the task to the resource's waiters if not
already present. -/
def wait_for (s : DetectorState) (task_id : TaskId) (resource_id : ResourceId) :
    DetectorState :=
  if s.enabled then
    { s with
      task_waiting := insertOrReplace s.task_waiting task_id resource_id
      resources := updateA s.resources resource_id
        (fun r => if task_id ∈ r.waiters then r
                  else { r with waiters := r.waiters ++ [task_id] }) }
  else s

/-- `entry(k).or_default().push(v)` on an adjacency map. -/
def pushAdj : List (TaskId × List TaskId) → TaskId → TaskId → List (TaskId × List TaskId)
  | [], k, v => [(k, [v])]
  | (k', vs) :: rest, k, v =>
      if k = k' then (k', vs ++ [v]) :: rest else (k', vs) :: pushAdj rest k v

/-- One iteration of the graph-building loop of `detect_deadlocks`: a
`task_waiting` entry contributes an edge (and a `task_to_resource` entry)
only when its resource is registered and has a recorded holder. -/
def waitGraphStep (resources : List (ResourceId × ResourceInfo))
    (acc : List (TaskId × List TaskId) × List (TaskId × ResourceId))
    (p : TaskId × ResourceId) :
    List (TaskId × List TaskId) × List (TaskId × ResourceId) :=
  match lookupA resources p.2 with
  | some r =>
      match r.holder with
      | some h => (pushAdj acc.1 p.1 h, insertOrReplace acc.2 p.1 p.2)
      | none => acc
  | none => acc

/-- The first loop of `detect_deadlocks`: build the wait-for graph
(`T1 → T2` iff `T1` waits for a resource whose recorded holder is `T2`;
entries whose resource is unregistered or has no holder are skipped) together
with the `task_to_resource` map used to reconstruct cycle resources. -/
def buildWaitGraph (s : DetectorState) :
    List (TaskId × List TaskId) × List (TaskId × ResourceId) :=
  s.task_waiting.foldl (waitGraphStep s.resources) ([], [])

/-- `path.iter().position(|&t| t == start_task).unwrap_or(0)`. -/
def positionOr0 (path : List TaskId) (t : TaskId) : Nat :=
  if t ∈ path then path.findIdx (fun x => decide (x = t)) else 0

/-- `DeadlockDetector::build_cycle`: the cycle is the suffix of the DFS path
from the revisited task; each consecutive pair contributes a `WaitEdge` (and
a resource) when the waiting task has a `task_to_resource` entry. -/
def build_cycle (start_task : TaskId) (path : List TaskId)
    (t2r : List (TaskId × ResourceId)) : DeadlockCycle :=
  let cycle_tasks := path.drop (positionOr0 path start_task)
  let pairs := (List.range cycle_tasks.length).filterMap
    (fun i =>
      match lookupA t2r (cycle_tasks.getD i 0) with
      | some rid =>
          some (⟨cycle_tasks.getD i 0, rid,
                 cycle_tasks.getD ((i + 1) % cycle_tasks.length) 0⟩ : WaitEdge)
      | none => none)
  { tasks := cycle_tasks
    resources := pairs.map (fun e => e.resource)
    chain := pairs }

/-- `DeadlockDetector::find_cycle_dfs`.  The Rust recursion terminates
because every recursive call inserts a previously unvisited node into
`visited`; the explicit `fuel` mirrors that bound and is chosen large enough
in `detect_deadlocks` that the `0` case is never reached.  Returns the
optional cycle together with the final `visited` and `rec_stack` sets, which
the caller's loop keeps mutating (on an early cycle return, `rec_stack` is
left holding the whole current path, exactly as in the source). -/
def find_cycle_dfs (graph : List (TaskId × List TaskId))
    (t2r : List (TaskId × ResourceId)) :
    Nat → TaskId → List TaskId → List TaskId → List TaskId →
    Option DeadlockCycle × List TaskId × List TaskId
  | 0, _, visited, rec_stack, _ => (none, visited, rec_stack)
  | fuel + 1, task, visited, rec_stack, path =>
      let visited' := task :: visited
      let rec_stack' := task :: rec_stack
      let path' := path ++ [task]
      let neighbors := match lookupA graph task with
        | some ns => ns
        | none => []
      let step := fun (acc : Option DeadlockCycle × List TaskId × List TaskId)
          (n : TaskId) =>
        match acc with
        | (some c, v, r) => (some c, v, r)
        | (none, v, r) =>
            if n ∈ v then
              if n ∈ r then (some (build_cycle n path' t2r), v, r)
              else (none, v, r)
            else find_cycle_dfs graph t2r fuel n v r path'
      match neighbors.foldl step (none, visited', rec_stack') with
      | (some c, v, r) => (some c, v, r)
      | (none, v, r) => (none, v, removeAll r task)

/-- `DeadlockDetector::detect_deadlocks`: build the wait-for graph, then run
the DFS from every not-yet-visited graph key, sharing `visited` and
`rec_stack` across the iterations (as the source does).  The fuel
`2 * task_waiting.length + 1` exceeds the number of distinct nodes the DFS
can ever visit (graph keys plus adjacency targets), so it is never
exhausted. -/
def detect_deadlocks (s : DetectorState) : List DeadlockCycle :=
  let gp := buildWaitGraph s
  let fuel := 2 * s.task_waiting.length + 1
  (gp.1.foldl
    (fun (acc : List DeadlockCycle × List TaskId × List TaskId) e =>
      if e.1 ∈ acc.2.1 then acc
      else
        match find_cycle_dfs gp.1 gp.2 fuel e.1 acc.2.1 acc.2.2 [] with
        | (some c, v, r) => (acc.1 ++ [c], v, r)
        | (none, v, r) => (acc.1, v, r))
    ([], [], [])).1

/-- `DeadlockDetector::clear`. -/
def DetectorState.clear (s : DetectorState) : DetectorState :=
  { s with resources := [], task_waiting := [] }

/-- `DeadlockDetector::enable`. -/
def DetectorState.enable (s : DetectorState) : DetectorState :=
  { s with enabled := true }

/-- `DeadlockDetector::disable`. -/
def DetectorState.disable (s : DetectorState) : DetectorState :=
  { s with enabled := false }

/-- Detector states reachable from `DeadlockDetector::new` through the public
mutating operations. -/
inductive DReachable : DetectorState → Prop
  | new : DReachable DetectorState.new
  | register (s : DetectorState) (info : ResourceInfo) :
      DReachable s → DReachable (register_resource s info)
  | acquire (s : DetectorState) (t : TaskId) (r : ResourceId) :
      DReachable s → DReachable (acquire s t r)
  | release (s : DetectorState) (t : TaskId) (r : ResourceId) :
      DReachable s → DReachable (release s t r)
  | wait (s : DetectorState) (t : TaskId) (r : ResourceId) :
      DReachable s → DReachable (wait_for s t r)
  | clear (s : DetectorState) : DReachable s → DReachable s.clear
  | enable (s : DetectorState) : DReachable s → DReachable s.enable
  | disable (s : DetectorState) : DReachable s → DReachable s.disable

/-- The two-task/two-resource contention scenario of the specification: from
a fresh detector, register `R1` and `R2` (freshly created, optionally
address-tagged), then `T1` acquires `R1` and waits for `R2`, and `T2`
acquires `R2` and waits for `R1`. -/
def twoTaskScenario (T1 T2 : TaskId) (R1 R2 : ResourceId)
    (k1 k2 : ResourceKind) (n1 n2 : String) (a1 a2 : Option Nat) :
    DetectorState :=
  wait_for (acquire (wait_for (acquire
    (register_resource
      (register_resource DetectorState.new
        { ResourceInfo.new R1 k1 n1 with address := a1 })
      { ResourceInfo.new R2 k2 n2 with address := a2 })
    T1 R1) T1 R2) T2 R2) T2 R1

/-! ### Task registry, timeline and inspector
(`src/task/mod.rs`, `src/timeline/mod.rs`, `src/inspector/mod.rs`)

Every operation that reads the wall clock (`Instant::now()`) takes the
current instant `now` as an explicit parameter; a compound operation that
reads the clock more than once within one call is given a single `now`
(the claims below never compare timestamps taken inside one call).
`TaskId::new()` draws from a process-global atomic counter separate from the
inspector, so freshly generated task ids are likewise explicit parameters. -/

/-- Current state of a task (`TaskState`). -/
inductive TaskState where
  | Pending
  | Running
  | Blocked (await_point : String)
  | Completed
  | Failed
deriving Repr, DecidableEq

/-- Information about a task (`TaskInfo`). -/
structure TaskInfo where
  id : TaskId
  name : String
  state : TaskState
  created_at : Instant
  last_updated : Instant
  poll_count : Nat
  total_run_time : Duration
  parent : Option TaskId
  location : Option String
deriving Repr, DecidableEq

/-- `TaskInfo::new` (the fresh id comes from the global counter). -/
def TaskInfo.new (id : TaskId) (name : String) (now : Instant) : TaskInfo :=
  ⟨id, name, TaskState.Pending, now, now, 0, 0, none, none⟩

/-- `TaskInfo::update_state`. -/
def TaskInfo.update_state (t : TaskInfo) (new_state : TaskState) (now : Instant) :
    TaskInfo :=
  { t with state := new_state, last_updated := now }

/-- `TaskInfo::record_poll`. -/
def TaskInfo.record_poll (t : TaskInfo) (duration : Duration) (now : Instant) :
    TaskInfo :=
  { t with poll_count := t.poll_count + 1
           total_run_time := t.total_run_time + duration
           last_updated := now }

/-- `TaskInfo::age`: `created_at.elapsed()`. -/
def TaskInfo.age (t : TaskInfo) (now : Instant) : Duration :=
  durationSince now t.created_at

/-- Kind of a timeline event (`EventKind`). -/
inductive EventKind where
  | TaskSpawned (name : String) (parent : Option TaskId) (location : Option String)
  | PollStarted
  | PollEnded (duration : Duration)
  | AwaitStarted (await_point : String) (location : Option String)
  | AwaitEnded (await_point : String) (duration : Duration)
  | TaskCompleted (duration : Duration)
  | TaskFailed (error : Option String)
  | InspectionPoint (label : String) (message : Option String)
  | StateChanged (old_state new_state : TaskState)
deriving Repr, DecidableEq

/-- A timeline event (`Event`); `id` is the raw value of `EventId`. -/
structure Event where
  id : Nat
  task_id : TaskId
  timestamp : Instant
  kind : EventKind
deriving Repr, DecidableEq

/-- The event timeline (`Timeline`). -/
structure Timeline where
  events : List Event
  start_time : Option Instant
deriving Repr, DecidableEq

/-- `Timeline::new`. -/
def Timeline.new : Timeline := ⟨[], none⟩

/-- `Timeline::add_event`: append, recording the first event's timestamp as
the start time. -/
def Timeline.add_event (tl : Timeline) (e : Event) : Timeline :=
  { events := tl.events ++ [e]
    start_time := match tl.start_time with
      | none => some e.timestamp
      | some t => some t }

/-- `Timeline::events_for_task`. -/
def Timeline.events_for_task (tl : Timeline) (task_id : TaskId) : List Event :=
  tl.events.filter (fun e => decide (e.task_id = task_id))

/-- `Timeline::clear`. -/
def Timeline.clear (_ : Timeline) : Timeline := ⟨[], none⟩

/-- The inspector's state (`InspectorState`): the task registry, the
timeline, the event-id counter (initially `1`) and the enabled flag. -/
structure InspectorState where
  tasks : List (TaskId × TaskInfo)
  timeline : Timeline
  event_counter : Nat
  enabled : Bool
deriving Repr, DecidableEq

/-- `Inspector::new`. -/
def Inspector.new : InspectorState := ⟨[], Timeline.new, 1, true⟩

/-- `Inspector::add_event`: stamp the event with the counter's current value
(`fetch_add` returns the pre-increment value), increment the counter, append
to the timeline.  No enabled check, as in the source. -/
def add_event (s : InspectorState) (task_id : TaskId) (kind : EventKind)
    (now : Instant) : InspectorState :=
  { s with
    event_counter := s.event_counter + 1
    timeline := s.timeline.add_event ⟨s.event_counter, task_id, now, kind⟩ }

/-- `Inspector::register_task` (the fresh `tid` comes from the global task
counter). -/
def register_task (s : InspectorState) (name : String) (tid : TaskId)
    (now : Instant) : InspectorState :=
  if s.enabled then
    let s1 := add_event s tid (EventKind.TaskSpawned name none none) now
    { s1 with tasks := insertOrReplace s1.tasks tid (TaskInfo.new tid name now) }
  else s

/-- `Inspector::register_child_task`. -/
def register_child_task (s : InspectorState) (name : String) (parent_id : TaskId)
    (tid : TaskId) (now : Instant) : InspectorState :=
  if s.enabled then
    let s1 := add_event s tid (EventKind.TaskSpawned name (some parent_id) none) now
    let task := { TaskInfo.new tid name now with parent := some parent_id }
    { s1 with tasks := insertOrReplace s1.tasks tid task }
  else s

/-- `Inspector::update_task_state`: update the task if it is registered and
append a `StateChanged` event; a silent no-op on an unknown id. -/
def update_task_state (s : InspectorState) (task_id : TaskId)
    (new_state : TaskState) (now : Instant) : InspectorState :=
  if s.enabled then
    match lookupA s.tasks task_id with
    | none => s
    | some task =>
        let tasks' := updateA s.tasks task_id (fun t => t.update_state new_state now)
        add_event { s with tasks := tasks' } task_id
          (EventKind.StateChanged task.state new_state) now
  else s

/-- `Inspector::poll_started`. -/
def poll_started (s : InspectorState) (task_id : TaskId) (now : Instant) :
    InspectorState :=
  if s.enabled then
    add_event (update_task_state s task_id TaskState.Running now) task_id
      EventKind.PollStarted now
  else s

/-- `Inspector::poll_ended`. -/
def poll_ended (s : InspectorState) (task_id : TaskId) (duration : Duration)
    (now : Instant) : InspectorState :=
  if s.enabled then
    add_event
      { s with tasks := updateA s.tasks task_id (fun t => t.record_poll duration now) }
      task_id (EventKind.PollEnded duration) now
  else s

/-- `Inspector::await_started`. -/
def await_started (s : InspectorState) (task_id : TaskId) (await_point : String)
    (location : Option String) (now : Instant) : InspectorState :=
  if s.enabled then
    add_event (update_task_state s task_id (TaskState.Blocked await_point) now)
      task_id (EventKind.AwaitStarted await_point location) now
  else s

/-- `Inspector::await_ended`. -/
def await_ended (s : InspectorState) (task_id : TaskId) (await_point : String)
    (duration : Duration) (now : Instant) : InspectorState :=
  if s.enabled then
    add_event s task_id (EventKind.AwaitEnded await_point duration) now
  else s

/-- `Inspector::task_completed`: only acts when the task is registered (its
age is the recorded duration). -/
def task_completed (s : InspectorState) (task_id : TaskId) (now : Instant) :
    InspectorState :=
  if s.enabled then
    match lookupA s.tasks task_id with
    | none => s
    | some task =>
        add_event (update_task_state s task_id TaskState.Completed now) task_id
          (EventKind.TaskCompleted (task.age now)) now
  else s

/-- `Inspector::task_failed`. -/
def task_failed (s : InspectorState) (task_id : TaskId) (error : Option String)
    (now : Instant) : InspectorState :=
  if s.enabled then
    add_event (update_task_state s task_id TaskState.Failed now) task_id
      (EventKind.TaskFailed error) now
  else s

/-- `Inspector::inspection_point`. -/
def inspection_point (s : InspectorState) (task_id : TaskId) (label : String)
    (message : Option String) (now : Instant) : InspectorState :=
  if s.enabled then
    add_event s task_id (EventKind.InspectionPoint label message) now
  else s

/-- `Inspector::clear`: empty the registry and timeline and reset the event
counter to `1`. -/
def Inspector.clear (s : InspectorState) : InspectorState :=
  { s with tasks := [], timeline := s.timeline.clear, event_counter := 1 }

/-- `Inspector::enable`. -/
def Inspector.enable (s : InspectorState) : InspectorState :=
  { s with enabled := true }

/-- `Inspector::disable`. -/
def Inspector.disable (s : InspectorState) : InspectorState :=
  { s with enabled := false }

/-- One call into the inspector's recording interface, with the explicit
fresh-id and clock parameters described above. -/
inductive IOp where
  | register (name : String) (tid : TaskId) (now : Instant)
  | registerChild (name : String) (parent : TaskId) (tid : TaskId) (now : Instant)
  | updateState (tid : TaskId) (st : TaskState) (now : Instant)
  | pollStart (tid : TaskId) (now : Instant)
  | pollEnd (tid : TaskId) (dur : Duration) (now : Instant)
  | awaitStart (tid : TaskId) (point : String) (loc : Option String) (now : Instant)
  | awaitEnd (tid : TaskId) (point : String) (dur : Duration) (now : Instant)
  | complete (tid : TaskId) (now : Instant)
  | failTask (tid : TaskId) (err : Option String) (now : Instant)
  | inspect (tid : TaskId) (label : String) (msg : Option String) (now : Instant)
  | clear
  | enable
  | disable
deriving Repr, DecidableEq

/-- Apply one operation to the inspector state. -/
def applyOp (s : InspectorState) : IOp → InspectorState
  | IOp.register name tid now => register_task s name tid now
  | IOp.registerChild name parent tid now => register_child_task s name parent tid now
  | IOp.updateState tid st now => update_task_state s tid st now
  | IOp.pollStart tid now => poll_started s tid now
  | IOp.pollEnd tid dur now => poll_ended s tid dur now
  | IOp.awaitStart tid point loc now => await_started s tid point loc now
  | IOp.awaitEnd tid point dur now => await_ended s tid point dur now
  | IOp.complete tid now => task_completed s tid now
  | IOp.failTask tid err now => task_failed s tid err now
  | IOp.inspect tid label msg now => inspection_point s tid label msg now
  | IOp.clear => Inspector.clear s
  | IOp.enable => Inspector.enable s
  | IOp.disable => Inspector.disable s

/-- The events an operation appends to the timeline: the suffix the
operation adds (empty for `clear`, which empties the timeline). -/
def appendedBy (s : InspectorState) (op : IOp) : List Event :=
  (applyOp s op).timeline.events.drop s.timeline.events.length

/-- Run a sequence of operations, returning the final state and the
concatenation of all events appended along the way. -/
def runTrace : InspectorState → List IOp → InspectorState × List Event
  | s, [] => (s, [])
  | s, op :: rest =>
      let p := runTrace (applyOp s op) rest
      (p.1, appendedBy s op ++ p.2)

/-- One iteration of the await-pairing loop of `Inspector::build_profiler`:
an `AwaitStarted` (over)writes the pending start instant for its label into
the `await_start_times` `HashMap`; an `AwaitEnded` removes the pending start
for its label, if any, and emits `timestamp.duration_since(start)`. -/
def awaitPairStep (acc : List Duration × List (String × Instant)) (e : Event) :
    List Duration × List (String × Instant) :=
  match e.kind with
  | EventKind.AwaitStarted p _ => (acc.1, insertOrReplace acc.2 p e.timestamp)
  | EventKind.AwaitEnded p _ =>
      match lookupA acc.2 p with
      | some st => (acc.1 ++ [durationSince e.timestamp st], removeA acc.2 p)
      | none => acc
  | _ => acc

/-- The await-pairing loop of `Inspector::build_profiler`, applied to one
task's events in timeline order. -/
def pairAwaitDurations (events : List Event) : List Duration :=
  (events.foldl awaitPairStep ([], [])).1

/-- `Inspector::build_profiler`, modelled as the sequence of per-task
metrics the loop feeds to `Profiler::record_task`, in registry iteration
order.  `await_count` is incremented exactly when a duration is pushed, so
it equals the length of `await_durations`. -/
def build_profiler (s : InspectorState) (now : Instant) : List TaskMetrics :=
  s.tasks.map (fun p =>
    let task := p.2
    let td := task.age now
    { TaskMetrics.new task.id task.name with
      total_duration := td
      running_time := task.total_run_time
      blocked_time := if task.total_run_time < td then td - task.total_run_time else 0
      poll_count := task.poll_count
      avg_poll_duration := if 0 < task.poll_count then task.total_run_time / task.poll_count else 0
      completed := (match task.state with
        | TaskState.Completed => true
        | _ => false)
      await_durations := pairAwaitDurations
        (s.timeline.events.filter (fun e => decide (e.task_id = task.id)))
      await_count := (pairAwaitDurations
        (s.timeline.events.filter (fun e => decide (e.task_id = task.id)))).length })

/-- Modelled from the spec: the await-pairing rule as the specification
words it — each `AwaitEnded` is paired with "the most recent unmatched
`AwaitStarted`" of the same label, so unmatched starts accumulate (a
per-label stack: a new start is pushed in front rather than overwriting,
and an end consumes the most recent unmatched start of its label). -/
def pairAwaitDurationsSpec (events : List Event) : List Duration :=
  (events.foldl
    (fun (acc : List Duration × List (String × Instant)) e =>
      match e.kind with
      | EventKind.AwaitStarted p _ => (acc.1, (p, e.timestamp) :: acc.2)
      | EventKind.AwaitEnded p _ =>
          match lookupA acc.2 p with
          | some st => (acc.1 ++ [durationSince e.timestamp st], removeA acc.2 p)
          | none => acc
      | _ => acc)
    ([], [])).1

/-- The effect one inspector operation (other than `clear`) has on the
timeline and the event counter: the counter does not decrease, the timeline
grows by a suffix `new`, and the appended events carry ids drawn from the
counter interval the operation consumed, in increasing order. -/
def GoodStep (s s' : InspectorState) : Prop :=
  s.event_counter ≤ s'.event_counter
  ∧ ∃ new, s'.timeline.events = s.timeline.events ++ new
      ∧ (∀ e ∈ new, s.event_counter ≤ e.id ∧ e.id < s'.event_counter)
      ∧ new.Pairwise (fun a b => a.id < b.id)

/-- Recognize await events, for stating which events the pairing ignores. -/
def EventKind.isAwait : EventKind → Bool
  | EventKind.AwaitStarted _ _ => true
  | EventKind.AwaitEnded _ _ => true
  | _ => false

/-- Recognize `AwaitEnded` events. -/
def EventKind.isAwaitEnd : EventKind → Bool
  | EventKind.AwaitEnded _ _ => true
  | _ => false

/-! ### Relationship graph (`src/graph.rs`) -/

/-- Types of relationships between tasks (`RelationshipType`). -/
inductive RelationshipType where
  | Spawned
  | ChannelSend
  | ChannelReceive
  | SharedResource
  | DataFlow
  | AwaitsOn
  | Dependency
deriving Repr, DecidableEq

/-- A relationship between two tasks (`Relationship`).  The source fields
`from` and `to` are Lean keywords, hence `from_` and `to_`. -/
structure Relationship where
  from_ : TaskId
  to_ : TaskId
  relationship_type : RelationshipType
  resource_name : Option String
  data_description : Option String
deriving Repr, DecidableEq

/-- The relationship graph (`TaskGraph`): the relationship list and the task
metadata map.  The source also maintains `adjacency`/`reverse_adjacency`
maps incrementally; `entry(from).push((to, type))` makes the adjacency entry
for `t` exactly the relationships with `from = t` in insertion order, which
is how `TaskGraph.adjacency` below reads it off. -/
structure TaskGraph where
  relationships : List Relationship
  tasks : List (TaskId × TaskInfo)
deriving Repr, DecidableEq

/-- `TaskGraph::new`. -/
def TaskGraph.new : TaskGraph := ⟨[], []⟩

/-- `TaskGraph::add_task`. -/
def TaskGraph.add_task (g : TaskGraph) (task : TaskInfo) : TaskGraph :=
  { g with tasks := insertOrReplace g.tasks task.id task }

/-- `TaskGraph::add_relationship`. -/
def TaskGraph.add_relationship (g : TaskGraph) (r : Relationship) : TaskGraph :=
  { g with relationships := g.relationships ++ [r] }

/-- The adjacency entry for `t` (see the `TaskGraph` comment). -/
def TaskGraph.adjacency (g : TaskGraph) (t : TaskId) :
    List (TaskId × RelationshipType) :=
  (g.relationships.filter (fun r => decide (r.from_ = t))).map
    (fun r => (r.to_, r.relationship_type))

/-- The relationship types `find_longest_path` follows (the `matches!` in
the source): `Dependency`, `DataFlow` and `AwaitsOn`. -/
def RelationshipType.isCritical : RelationshipType → Bool
  | RelationshipType.Dependency => true
  | RelationshipType.DataFlow => true
  | RelationshipType.AwaitsOn => true
  | _ => false

/-- `TaskGraph::find_longest_path`.  The Rust recursion terminates because
`visited` (the current DFS path) gains a node on every call; the explicit
`fuel` mirrors that bound.  `find_critical_path` passes
`relationships.length + 2`, which strictly exceeds the longest possible
chain of recursive calls (each level beyond the first consumes a distinct
relationship, since the `from` nodes along the path are distinct), so the
`0` case is never reached. -/
def find_longest_path (g : TaskGraph) : Nat → TaskId → List TaskId → List TaskId
  | 0, _, _ => []
  | fuel + 1, task_id, visited =>
      if task_id ∈ visited then []
      else
        (g.adjacency task_id).foldl
          (fun longest nr =>
            if nr.2.isCritical then
              let path := find_longest_path g fuel nr.1 (task_id :: visited)
              if longest.length < path.length + 1 then task_id :: path else longest
            else longest)
          [task_id]

/-- `TaskGraph::find_critical_path`: the longest of the per-task longest
paths, iterating over the task map's keys. -/
def find_critical_path (g : TaskGraph) : List TaskId :=
  (g.tasks.map Prod.fst).foldl
    (fun longest_path t =>
      let path := find_longest_path g (g.relationships.length + 2) t []
      if longest_path.length < path.length then path else longest_path)
    []

/-- The loop body of `find_longest_path` (definitionally the fold step in
`find_longest_path`; named so the proofs below can state lemmas about it). -/
def flpStep (g : TaskGraph) (fuel : Nat) (task_id : TaskId) (visited : List TaskId)
    (longest : List TaskId) (nr : TaskId × RelationshipType) : List TaskId :=
  if nr.2.isCritical then
    let path := find_longest_path g fuel nr.1 (task_id :: visited)
    if longest.length < path.length + 1 then task_id :: path else longest
  else longest

/-- The loop body of `find_critical_path` (definitionally the fold step in
`find_critical_path`). -/
def fcpStep (g : TaskGraph) (longest_path : List TaskId) (t : TaskId) : List TaskId :=
  let path := find_longest_path g (g.relationships.length + 2) t []
  if longest_path.length < path.length then path else longest_path

/-- The edge relation `find_longest_path` follows: a critical-typed
relationship from `a` to `b`. -/
def critAdj (g : TaskGraph) (a b : TaskId) : Prop :=
  ∃ r ∈ g.relationships,
    r.from_ = a ∧ r.to_ = b ∧ r.relationship_type.isCritical = true

/-- A chain the critical-path algorithm is meant to maximise over: a
non-empty list of tasks starting at a task of the graph and following only
critical edges. -/
def CritChain (g : TaskGraph) (c : List TaskId) : Prop :=
  c ≠ [] ∧ (∀ t, c.head? = some t → t ∈ g.tasks.map Prod.fst)
  ∧ List.Chain' (critAdj g) c

/-- Acyclicity along the critical edge types. -/
def CritAcyclic (g : TaskGraph) : Prop :=
  ∀ t, ¬ Relation.TransGen (critAdj g) t t

/-! ## Theorems -/

theorem orderedInsertBy_perm {α : Type _} (le : α → α → Bool) (a : α) (l : List α) :
    (orderedInsertBy le a l).Perm (a :: l) := by
  induction l with
  | nil => simp [orderedInsertBy]
  | cons b t ih =>
      cases hab : le a b with
      | true => simp [orderedInsertBy, hab]
      | false =>
          simp only [orderedInsertBy, hab, Bool.false_eq_true, if_false]
          exact ((ih.cons b).trans (List.Perm.swap a b t))

theorem sortBy_perm {α : Type _} (le : α → α → Bool) (l : List α) :
    (sortBy le l).Perm l := by
  induction l with
  | nil => simp [sortBy]
  | cons a t ih =>
      exact (orderedInsertBy_perm le a (sortBy le t)).trans (ih.cons a)

theorem orderedInsertBy_sorted {α : Type _} (le : α → α → Bool)
    (htot : ∀ a b, le a b = true ∨ le b a = true)
    (htrans : ∀ a b c, le a b = true → le b c = true → le a c = true)
    (a : α) (l : List α) (hl : l.Pairwise (fun x y => le x y = true)) :
    (orderedInsertBy le a l).Pairwise (fun x y => le x y = true) := by
  induction l with
  | nil => simp [orderedInsertBy]
  | cons b t ih =>
      rw [List.pairwise_cons] at hl
      obtain ⟨hb, ht⟩ := hl
      cases hab : le a b with
      | true =>
          simp only [orderedInsertBy, hab, if_true]
          rw [List.pairwise_cons]
          refine ⟨?_, List.pairwise_cons.mpr ⟨hb, ht⟩⟩
          intro x hx
          rcases List.mem_cons.mp hx with rfl | hx
          · exact hab
          · exact htrans a b x hab (hb x hx)
      | false =>
          simp only [orderedInsertBy, hab, Bool.false_eq_true, if_false]
          rw [List.pairwise_cons]
          refine ⟨?_, ih ht⟩
          intro x hx
          have hx' := (orderedInsertBy_perm le a t).mem_iff.mp hx
          rcases List.mem_cons.mp hx' with rfl | hx''
          · rcases htot x b with h' | h'
            · rw [hab] at h'
              exact absurd h' (by simp)
            · exact h'
          · exact hb x hx''

theorem sortBy_sorted {α : Type _} (le : α → α → Bool)
    (htot : ∀ a b, le a b = true ∨ le b a = true)
    (htrans : ∀ a b c, le a b = true → le b c = true → le a c = true)
    (l : List α) : (sortBy le l).Pairwise (fun x y => le x y = true) := by
  induction l with
  | nil => simp [sortBy]
  | cons a t ih => exact orderedInsertBy_sorted le htot htrans a (sortBy le t) ih

theorem orderedInsertBy_filter_stable {α : Type _} (le : α → α → Bool)
    (p : α → Bool) (hcompat : ∀ a b, p a = true → p b = true → le a b = true)
    (a : α) (l : List α) :
    (orderedInsertBy le a l).filter p = (a :: l).filter p := by
  induction l with
  | nil => simp [orderedInsertBy]
  | cons b t ih =>
      cases hab : le a b with
      | true => simp [orderedInsertBy, hab]
      | false =>
          simp only [orderedInsertBy, hab, Bool.false_eq_true, if_false]
          cases hpb : p b with
          | true =>
              have hpa : p a = false := by
                cases hpa : p a with
                | true =>
                    have := hcompat a b hpa hpb
                    rw [hab] at this
                    exact absurd this (by simp)
                | false => rfl
              simp only [List.filter_cons, hpa, hpb, Bool.false_eq_true,
                if_false, if_true] at *
              rw [ih]
          | false =>
              simp only [List.filter_cons, hpb, Bool.false_eq_true,
                if_false] at *
              rw [ih]

theorem sortBy_filter_stable {α : Type _} (le : α → α → Bool)
    (p : α → Bool) (hcompat : ∀ a b, p a = true → p b = true → le a b = true)
    (l : List α) : (sortBy le l).filter p = l.filter p := by
  induction l with
  | nil => simp [sortBy]
  | cons a t ih =>
      calc (orderedInsertBy le a (sortBy le t)).filter p
          = (a :: sortBy le t).filter p :=
            orderedInsertBy_filter_stable le p hcompat a (sortBy le t)
        _ = (a :: t).filter p := by
          simp only [List.filter_cons, ih]

theorem sortBy_nat_le_sorted (l : List Nat) :
    (sortBy (fun a b => decide (a ≤ b)) l).Sorted (· ≤ ·) := by
  have h := sortBy_sorted (fun a b : Nat => decide (a ≤ b))
    (fun a b => by
      rcases Nat.le_total a b with h | h
      · exact Or.inl (decide_eq_true h)
      · exact Or.inr (decide_eq_true h))
    (fun a b c h1 h2 =>
      decide_eq_true (Nat.le_trans (of_decide_eq_true h1) (of_decide_eq_true h2)))
    l
  exact h.imp (fun hd => of_decide_eq_true hd)

/-- **C4.** `DurationStats::from_durations` on a non-empty list sorts the
input and returns: `min`/`max` the sorted extremes, `mean` the sum divided by
the count, `median` the average of the two middle sorted values for even
counts (the middle value for odd counts), and `p95`/`p99` the sorted element
at index `floor(count * percentile)` clamped to the last valid index.  The
sorted list is characterised as any sorted permutation `s` of the input. -/
theorem C4_duration_stats (l s : List Duration) (hne : l ≠ [])
    (hperm : s.Perm l) (hsort : s.Sorted (· ≤ ·)) :
    (DurationStats.from_durations l).count = l.length
    ∧ (DurationStats.from_durations l).min = s.headI
    ∧ (DurationStats.from_durations l).max = s.getLastD 0
    ∧ (DurationStats.from_durations l).mean = l.sum / l.length
    ∧ (DurationStats.from_durations l).median =
        (if l.length % 2 = 0 then
          (s.getD (l.length / 2 - 1) 0 + s.getD (l.length / 2) 0) / 2
        else s.getD (l.length / 2) 0)
    ∧ (DurationStats.from_durations l).p95 =
        s.getD (Nat.min (l.length * 95 / 100) (l.length - 1)) 0
    ∧ (DurationStats.from_durations l).p99 =
        s.getD (Nat.min (l.length * 99 / 100) (l.length - 1)) 0 := by
  have hperm2 : (sortBy (fun a b => decide (a ≤ b)) l).Perm l := sortBy_perm _ l
  have hs : s = sortBy (fun a b => decide (a ≤ b)) l :=
    List.eq_of_perm_of_sorted (hperm.trans hperm2.symm) hsort (sortBy_nat_le_sorted l)
  have hlen : (sortBy (fun a b => decide (a ≤ b)) l).length = l.length :=
    hperm2.length_eq
  have hsum : (sortBy (fun a b => decide (a ≤ b)) l).sum = l.sum :=
    hperm2.sum_eq
  rw [DurationStats.from_durations, if_neg hne]
  subst hs
  simp [hlen, hsum]

/-- **C4 witness**: the spec's concrete instance
`[10, 20, 30, 40, 50] ms` (fed to the function unsorted). -/
theorem C4_duration_stats_witness :
    (DurationStats.from_durations
      [millis 20, millis 10, millis 50, millis 30, millis 40]).min = millis 10
    ∧ (DurationStats.from_durations
      [millis 20, millis 10, millis 50, millis 30, millis 40]).max = millis 50
    ∧ (DurationStats.from_durations
      [millis 20, millis 10, millis 50, millis 30, millis 40]).median = millis 30
    ∧ (DurationStats.from_durations
      [millis 20, millis 10, millis 50, millis 30, millis 40]).count = 5 := by
  have h := C4_duration_stats
    [millis 20, millis 10, millis 50, millis 30, millis 40]
    [millis 10, millis 20, millis 30, millis 40, millis 50]
    (by decide) (by decide) (by decide)
  obtain ⟨hc, hmin, hmax, _, hmed, _, _⟩ := h
  refine ⟨hmin.trans (by decide), hmax.trans (by decide), ?_, hc.trans (by decide)⟩
  rw [hmed]
  decide

/-- **C9.** `DurationStats::from_durations` applied to the empty list returns
count `0` and every other field zero; as a total function it can never raise
an error. -/
theorem C9_empty_duration_stats :
    DurationStats.from_durations [] =
      { min := 0, max := 0, mean := 0, median := 0, p95 := 0, p99 := 0,
        variance := 0, count := 0 } := rfl

/-- **C1.** In every two-task/two-resource scenario where `T1` holds `R1` and
waits for `R2` while `T2` holds `R2` and waits for `R1` (tasks distinct,
resources distinct), `detect_deadlocks` returns exactly one cycle, whose
tasks are exactly `{T1, T2}` and whose resources are exactly `{R1, R2}`. -/
theorem C1_two_task_deadlock (T1 T2 : TaskId) (R1 R2 : ResourceId)
    (k1 k2 : ResourceKind) (n1 n2 : String) (a1 a2 : Option Nat)
    (hT : T1 ≠ T2) (hR : R1 ≠ R2) :
    (detect_deadlocks (twoTaskScenario T1 T2 R1 R2 k1 k2 n1 n2 a1 a2)).length = 1
    ∧ ∀ c ∈ detect_deadlocks (twoTaskScenario T1 T2 R1 R2 k1 k2 n1 n2 a1 a2),
        (∀ t, t ∈ c.tasks ↔ (t = T1 ∨ t = T2)) ∧ c.tasks.Nodup
        ∧ (∀ r, r ∈ c.resources ↔ (r = R1 ∨ r = R2)) ∧ c.resources.Nodup := by
  have hT' : T2 ≠ T1 := hT.symm
  have hR' : R2 ≠ R1 := hR.symm
  have hdet : detect_deadlocks (twoTaskScenario T1 T2 R1 R2 k1 k2 n1 n2 a1 a2)
      = [⟨[T1, T2], [R2, R1], [⟨T1, R2, T2⟩, ⟨T2, R1, T1⟩]⟩] := by
    simp [twoTaskScenario, DetectorState.new, register_resource, acquire,
      wait_for, detect_deadlocks, buildWaitGraph, pushAdj, insertOrReplace,
      waitGraphStep, updateA, removeA, removeAll, lookupA, find_cycle_dfs,
      build_cycle, positionOr0, ResourceInfo.new, hT, hR, hT', hR',
      List.range_succ, List.findIdx_cons]
  rw [hdet]
  refine ⟨rfl, ?_⟩
  intro c hc
  rw [List.mem_singleton] at hc
  subst hc
  refine ⟨?_, ?_, ?_, ?_⟩
  · intro t
    simp
  · simp [hT]
  · intro r
    simp [or_comm]
  · simp [hR']

/-- **C1 witness**: the scenario at `T1 = 1`, `T2 = 2`, `R1 = 1`, `R2 = 2`
yields exactly one reported cycle. -/
theorem C1_two_task_deadlock_witness :
    (detect_deadlocks (twoTaskScenario 1 2 1 2 ResourceKind.Mutex
      ResourceKind.Mutex "a" "b" none none)).length = 1 :=
  (C1_two_task_deadlock 1 2 1 2 ResourceKind.Mutex ResourceKind.Mutex
    "a" "b" none none (by decide) (by decide)).1

theorem lookupA_eq_none_iff {α β : Type _} [DecidableEq α] (l : List (α × β)) (k : α) :
    lookupA l k = none ↔ k ∉ l.map Prod.fst := by
  induction l with
  | nil => simp [lookupA]
  | cons p rest ih =>
      obtain ⟨k', v'⟩ := p
      by_cases h : k = k'
      · subst h
        simp [lookupA]
      · simp [lookupA, h, ih]

theorem lookupA_updateA_self {α β : Type _} [DecidableEq α] (l : List (α × β)) (k : α) (f : β → β) :
    lookupA (updateA l k f) k = (lookupA l k).map f := by
  induction l with
  | nil => simp [lookupA, updateA]
  | cons p rest ih =>
      obtain ⟨k', v'⟩ := p
      by_cases h : k = k'
      · subst h
        simp [lookupA, updateA]
      · simp [lookupA, updateA, h, ih]

theorem lookupA_updateA_ne {α β : Type _} [DecidableEq α] (l : List (α × β)) (k k' : α)
    (f : β → β) (h : k' ≠ k) :
    lookupA (updateA l k f) k' = lookupA l k' := by
  induction l with
  | nil => simp [updateA]
  | cons p rest ih =>
      obtain ⟨k0, v0⟩ := p
      by_cases hk : k = k0
      · subst hk
        simp [lookupA, updateA, h]
      · by_cases hk' : k' = k0
        · subst hk'
          simp [lookupA, updateA, hk]
        · simp [lookupA, updateA, hk, hk', ih]

theorem updateA_eq_of_lookup_fix {α β : Type _} [DecidableEq α] (l : List (α × β)) (k : α)
    (f : β → β) (v : β) (hl : lookupA l k = some v) (hf : f v = v) :
    updateA l k f = l := by
  induction l with
  | nil => simp [updateA]
  | cons p rest ih =>
      obtain ⟨k0, v0⟩ := p
      by_cases hk : k = k0
      · subst hk
        simp only [lookupA] at hl
        simp only [if_true] at hl
        injection hl with hl
        subst hl
        simp [updateA, hf]
      · simp only [lookupA, if_neg hk] at hl
        simp [updateA, hk, ih hl]

theorem removeA_sublist {α β : Type _} [DecidableEq α] (l : List (α × β)) (k : α) :
    (removeA l k).Sublist l := by
  induction l with
  | nil => exact List.Sublist.refl _
  | cons p rest ih =>
      obtain ⟨k0, v0⟩ := p
      by_cases hk : k = k0
      · simp only [removeA, if_pos hk]
        exact List.sublist_cons_self _ _
      · simp only [removeA, if_neg hk]
        exact ih.cons₂ _

theorem lookupA_removeA_self {α β : Type _} [DecidableEq α] (l : List (α × β)) (k : α)
    (h : (l.map Prod.fst).Nodup) : lookupA (removeA l k) k = none := by
  induction l with
  | nil => simp [removeA, lookupA]
  | cons p rest ih =>
      obtain ⟨k0, v0⟩ := p
      simp only [List.map_cons, List.nodup_cons] at h
      by_cases hk : k = k0
      · subst hk
        simp only [removeA]
        simp only [if_true]
        exact (lookupA_eq_none_iff rest k).mpr h.1
      · simp only [removeA, if_neg hk, lookupA]
        exact ih h.2

theorem lookupA_insertOrReplace_self {α β : Type _} [DecidableEq α] (l : List (α × β))
    (k : α) (v : β) : lookupA (insertOrReplace l k v) k = some v := by
  induction l with
  | nil => simp [insertOrReplace, lookupA]
  | cons p rest ih =>
      obtain ⟨k0, v0⟩ := p
      by_cases hk : k = k0
      · subst hk
        simp [insertOrReplace, lookupA]
      · simp [insertOrReplace, lookupA, hk, ih]

theorem insertOrReplace_keys_subset {α β : Type _} [DecidableEq α] (l : List (α × β))
    (k : α) (v : β) (x : α) (hx : x ∈ (insertOrReplace l k v).map Prod.fst) :
    x ∈ l.map Prod.fst ∨ x = k := by
  induction l with
  | nil =>
      simp [insertOrReplace] at hx
      exact Or.inr hx
  | cons p rest ih =>
      obtain ⟨k0, v0⟩ := p
      by_cases hk : k = k0
      · subst hk
        simp only [insertOrReplace] at hx
        simp only [if_true] at hx
        simp only [List.map_cons, List.mem_cons] at hx
        rcases hx with rfl | hx
        · exact Or.inr rfl
        · exact Or.inl (by simp [hx])
      · simp only [insertOrReplace, if_neg hk, List.map_cons, List.mem_cons] at hx
        rcases hx with rfl | hx
        · exact Or.inl (by simp)
        · rcases ih hx with h | h
          · exact Or.inl (by simp [h])
          · exact Or.inr h

theorem insertOrReplace_keys_nodup {α β : Type _} [DecidableEq α] (l : List (α × β))
    (k : α) (v : β) (h : (l.map Prod.fst).Nodup) :
    ((insertOrReplace l k v).map Prod.fst).Nodup := by
  induction l with
  | nil => simp [insertOrReplace]
  | cons p rest ih =>
      obtain ⟨k0, v0⟩ := p
      simp only [List.map_cons, List.nodup_cons] at h
      by_cases hk : k = k0
      · subst hk
        simp only [insertOrReplace]
        simp only [if_true]
        simp only [List.map_cons, List.nodup_cons]
        exact h
      · simp only [insertOrReplace, if_neg hk, List.map_cons, List.nodup_cons]
        refine ⟨?_, ih h.2⟩
        intro hmem
        rcases insertOrReplace_keys_subset rest k v k0 hmem with h' | h'
        · exact h.1 h'
        · exact hk h'.symm

theorem keys_nodup_unique_value {α β : Type _} [DecidableEq α] (l : List (α × β))
    (h : (l.map Prod.fst).Nodup) (k : α) (v1 v2 : β)
    (h1 : (k, v1) ∈ l) (h2 : (k, v2) ∈ l) : v1 = v2 := by
  induction l with
  | nil => cases h1
  | cons p rest ih =>
      obtain ⟨k0, v0⟩ := p
      simp only [List.map_cons, List.nodup_cons] at h
      rcases List.mem_cons.mp h1 with he1 | h1'
      · rcases List.mem_cons.mp h2 with he2 | h2'
        · rw [Prod.mk.injEq] at he1 he2
          rw [he1.2, he2.2]
        · exfalso
          apply h.1
          rw [Prod.mk.injEq] at he1
          rw [← he1.1]
          exact List.mem_map_of_mem Prod.fst h2'
      · rcases List.mem_cons.mp h2 with he2 | h2'
        · exfalso
          apply h.1
          rw [Prod.mk.injEq] at he2
          rw [← he2.1]
          exact List.mem_map_of_mem Prod.fst h1'
        · exact ih h.2 h1' h2'

theorem pushAdj_keys (g : List (TaskId × List TaskId)) (k v x : TaskId)
    (hx : x ∈ (pushAdj g k v).map Prod.fst) : x = k ∨ x ∈ g.map Prod.fst := by
  induction g with
  | nil =>
      simp [pushAdj] at hx
      exact Or.inl hx
  | cons p rest ih =>
      obtain ⟨k0, vs⟩ := p
      by_cases hk : k = k0
      · subst hk
        simp only [pushAdj, if_true, List.map_cons, List.mem_cons] at hx
        rcases hx with rfl | hx
        · exact Or.inl rfl
        · exact Or.inr (by simp [hx])
      · simp only [pushAdj, if_neg hk, List.map_cons, List.mem_cons] at hx
        rcases hx with rfl | hx
        · exact Or.inr (by simp)
        · rcases ih hx with h | h
          · exact Or.inl h
          · exact Or.inr (by simp [h])

theorem waitGraphFold_keys (res : List (ResourceId × ResourceInfo))
    (l : List (TaskId × ResourceId)) :
    ∀ acc, ∀ e ∈ (l.foldl (waitGraphStep res) acc).1,
      e.1 ∈ acc.1.map Prod.fst ∨ e.1 ∈ l.map Prod.fst := by
  induction l with
  | nil =>
      intro acc e he
      exact Or.inl (List.mem_map_of_mem Prod.fst he)
  | cons p rest ih =>
      intro acc e he
      simp only [List.foldl_cons] at he
      rcases ih (waitGraphStep res acc p) e he with h | h
      · have hsub : e.1 ∈ acc.1.map Prod.fst ∨ e.1 = p.1 := by
          cases hlr : lookupA res p.2 with
          | none =>
              simp only [waitGraphStep, hlr] at h
              exact Or.inl h
          | some r =>
              cases hh : r.holder with
              | none =>
                  simp only [waitGraphStep, hlr, hh] at h
                  exact Or.inl h
              | some hld =>
                  simp only [waitGraphStep, hlr, hh] at h
                  rcases pushAdj_keys acc.1 p.1 hld e.1 h with h' | h'
                  · exact Or.inr h'
                  · exact Or.inl h'
        rcases hsub with h' | h'
        · exact Or.inl h'
        · exact Or.inr (by simp [h'])
      · exact Or.inr (by simp [h])

theorem buildWaitGraph_keys (s : DetectorState) :
    ∀ e ∈ (buildWaitGraph s).1, e.1 ∈ s.task_waiting.map Prod.fst := by
  intro e he
  rcases waitGraphFold_keys s.resources s.task_waiting ([], []) e he with h | h
  · simp at h
  · exact h

theorem dreachable_waiting_keys_nodup (s : DetectorState) (h : DReachable s) :
    (s.task_waiting.map Prod.fst).Nodup := by
  induction h with
  | new => simp [DetectorState.new]
  | register s info hs ih =>
      by_cases he : s.enabled <;> simp [register_resource, he, ih]
  | acquire s t r hs ih =>
      by_cases he : s.enabled
      · simp only [acquire, he]
        simp only [if_true]
        exact List.Nodup.sublist
          (List.Sublist.map Prod.fst (removeA_sublist s.task_waiting t)) ih
      · simp [acquire, he, ih]
  | release s t r hs ih =>
      by_cases he : s.enabled <;> simp [release, he, ih]
  | wait s t r hs ih =>
      by_cases he : s.enabled
      · simp only [wait_for, he]
        simp only [if_true]
        exact insertOrReplace_keys_nodup _ t r ih
      · simp [wait_for, he, ih]
  | clear s hs ih => simp [DetectorState.clear]
  | enable s hs ih => simpa [DetectorState.enable] using ih
  | disable s hs ih => simpa [DetectorState.disable] using ih

/-- **C10.** In every reachable detector state, each task has at most one
outstanding waiting-for resource (the `task_waiting` map binds each task to
at most one resource); a later `wait_for(T, R2)` overwrites the pointer to
`R2`; and `acquire` removes it entirely. -/
theorem C10_wait_pointer (s : DetectorState) (h : DReachable s) :
    (∀ T r1 r2, (T, r1) ∈ s.task_waiting → (T, r2) ∈ s.task_waiting → r1 = r2)
    ∧ (∀ T R2, s.enabled = true →
        lookupA (wait_for s T R2).task_waiting T = some R2)
    ∧ (∀ T R, s.enabled = true →
        lookupA (acquire s T R).task_waiting T = none) := by
  have hnd := dreachable_waiting_keys_nodup s h
  refine ⟨?_, ?_, ?_⟩
  · intro T r1 r2 h1 h2
    exact keys_nodup_unique_value s.task_waiting hnd T r1 r2 h1 h2
  · intro T R2 he
    simp only [wait_for, he]
    simp only [if_true]
    exact lookupA_insertOrReplace_self s.task_waiting T R2
  · intro T R he
    simp only [acquire, he]
    simp only [if_true]
    exact lookupA_removeA_self s.task_waiting T hnd

/-- **C10 witness**: from the fresh (reachable) detector, an `acquire`
leaves the acquiring task with no waiting-for pointer. -/
theorem C10_wait_pointer_witness :
    lookupA (acquire DetectorState.new 1 5).task_waiting 1 = none :=
  (C10_wait_pointer DetectorState.new DReachable.new).2.2 1 5 rfl

/-- **C7.** For an enabled detector, a task `T` and a registered resource `R`
(with registry entry `ri`): `release(T, R)` clears the holder exactly when
`T` is the current holder and is a complete no-op otherwise; `acquire(T, R)`
records `T` as holder (dropping `T` from the waiters), removes `T`'s
waiting-for pointer, and consequently the next detection pass builds a
wait-for graph with no edge leaving `T`.  (`task_waiting` keys are unique in
any `HashMap`, and in every reachable model state by `C10`; this is the
`hnd` hypothesis.) -/
theorem C7_acquire_release (s : DetectorState) (T : TaskId) (R : ResourceId)
    (ri : ResourceInfo) (hen : s.enabled = true)
    (hreg : lookupA s.resources R = some ri)
    (hnd : (s.task_waiting.map Prod.fst).Nodup) :
    (ri.holder = some T →
        lookupA (release s T R).resources R = some { ri with holder := none }
        ∧ (∀ R', R' ≠ R →
            lookupA (release s T R).resources R' = lookupA s.resources R')
        ∧ (release s T R).task_waiting = s.task_waiting)
    ∧ (ri.holder ≠ some T → release s T R = s)
    ∧ lookupA (acquire s T R).resources R =
        some { ri with holder := some T, waiters := removeAll ri.waiters T }
    ∧ (∀ R', R' ≠ R →
        lookupA (acquire s T R).resources R' = lookupA s.resources R')
    ∧ lookupA (acquire s T R).task_waiting T = none
    ∧ ∀ e ∈ (buildWaitGraph (acquire s T R)).1, e.1 ≠ T := by
  have hacq_tw : lookupA (acquire s T R).task_waiting T = none := by
    simp only [acquire, hen]
    simp only [if_true]
    exact lookupA_removeA_self s.task_waiting T hnd
  refine ⟨?_, ?_, ?_, ?_, hacq_tw, ?_⟩
  · intro hh
    refine ⟨?_, ?_, ?_⟩
    · simp only [release, hen]
      simp only [if_true]
      rw [lookupA_updateA_self, hreg]
      simp [hh]
    · intro R' hne
      simp only [release, hen]
      simp only [if_true]
      exact lookupA_updateA_ne _ R R' _ hne
    · simp [release, hen]
  · intro hh
    simp only [release, hen]
    simp only [if_true]
    rw [updateA_eq_of_lookup_fix s.resources R _ ri hreg (by simp [hh])]
    rw [← hen]
  · simp only [acquire, hen]
    simp only [if_true]
    rw [lookupA_updateA_self, hreg]
    rfl
  · intro R' hne
    simp only [acquire, hen]
    simp only [if_true]
    exact lookupA_updateA_ne _ R R' _ hne
  · intro e he heq
    have hkey := buildWaitGraph_keys (acquire s T R) e he
    rw [heq] at hkey
    rw [lookupA_eq_none_iff] at hacq_tw
    exact hacq_tw hkey

/-- **C7 witness**: register a mutex, have task `3` acquire it, then release
it; the registry shows the resource no longer held. -/
theorem C7_acquire_release_witness :
    lookupA (release (acquire (register_resource DetectorState.new
        (ResourceInfo.new 5 ResourceKind.Mutex "m")) 3 5) 3 5).resources 5
      = some ⟨5, ResourceKind.Mutex, "m", none, [], none⟩ := by
  have h := C7_acquire_release
    (acquire (register_resource DetectorState.new
      (ResourceInfo.new 5 ResourceKind.Mutex "m")) 3 5) 3 5
    ⟨5, ResourceKind.Mutex, "m", some 3, [], none⟩
    rfl (by decide) (by decide)
  exact (h.1 rfl).1

/-- **C8.** `update_task_state` on a task id absent from the registry is a
complete no-op: the state (registry, timeline, counter) is returned
unchanged and no error is possible. -/
theorem C8_update_state_unknown_noop (s : InspectorState) (tid : TaskId)
    (st : TaskState) (now : Instant) (h : lookupA s.tasks tid = none) :
    update_task_state s tid st now = s := by
  by_cases he : s.enabled
  · simp [update_task_state, he, h]
  · simp [update_task_state, he]

/-- **C8 witness**: updating an unregistered id on a fresh inspector. -/
theorem C8_update_state_unknown_noop_witness :
    update_task_state Inspector.new 7 TaskState.Running 0 = Inspector.new :=
  C8_update_state_unknown_noop Inspector.new 7 TaskState.Running 0 rfl

theorem goodStep_same (s s' : InspectorState)
    (h1 : s'.event_counter = s.event_counter)
    (h2 : s'.timeline.events = s.timeline.events) : GoodStep s s' := by
  refine ⟨le_of_eq h1.symm, [], by simp [h2], by simp, by simp⟩

theorem goodStep_trans (s1 s2 s3 : InspectorState)
    (h12 : GoodStep s1 s2) (h23 : GoodStep s2 s3) : GoodStep s1 s3 := by
  obtain ⟨hc12, n1, he1, hb1, hp1⟩ := h12
  obtain ⟨hc23, n2, he2, hb2, hp2⟩ := h23
  refine ⟨le_trans hc12 hc23, n1 ++ n2, ?_, ?_, ?_⟩
  · rw [he2, he1, List.append_assoc]
  · intro e he
    rcases List.mem_append.mp he with h | h
    · exact ⟨(hb1 e h).1, lt_of_lt_of_le (hb1 e h).2 hc23⟩
    · exact ⟨le_trans hc12 (hb2 e h).1, (hb2 e h).2⟩
  · rw [List.pairwise_append]
    refine ⟨hp1, hp2, ?_⟩
    intro a ha b hb
    exact lt_of_lt_of_le (hb1 a ha).2 (hb2 b hb).1

theorem goodStep_add_event (s : InspectorState) (tid : TaskId)
    (kind : EventKind) (now : Instant) : GoodStep s (add_event s tid kind now) := by
  refine ⟨Nat.le_succ _, [⟨s.event_counter, tid, now, kind⟩], ?_, ?_, ?_⟩
  · simp [add_event, Timeline.add_event]
  · intro e he
    rw [List.mem_singleton] at he
    subst he
    exact ⟨le_refl _, Nat.lt_succ_self _⟩
  · simp

theorem goodStep_update_task_state (s : InspectorState) (tid : TaskId)
    (st : TaskState) (now : Instant) : GoodStep s (update_task_state s tid st now) := by
  by_cases he : s.enabled
  · cases hl : lookupA s.tasks tid with
    | none => simp only [update_task_state, he, if_true, hl]
              exact goodStep_same s s rfl rfl
    | some task =>
        simp only [update_task_state, he, if_true, hl]
        exact goodStep_trans _ _ _
          (goodStep_same s _ rfl rfl)
          (goodStep_add_event _ tid _ now)
  · simp only [update_task_state, he]
    exact goodStep_same s s rfl rfl

theorem applyOp_good (s : InspectorState) (op : IOp) (h : op ≠ IOp.clear) :
    GoodStep s (applyOp s op) := by
  cases op with
  | register name tid now =>
      by_cases he : s.enabled
      · simp only [applyOp, register_task, he, if_true]
        exact goodStep_trans _ _ _ (goodStep_add_event s tid _ now)
          (goodStep_same _ _ rfl rfl)
      · simp only [applyOp, register_task, he]
        exact goodStep_same s s rfl rfl
  | registerChild name parent tid now =>
      by_cases he : s.enabled
      · simp only [applyOp, register_child_task, he, if_true]
        exact goodStep_trans _ _ _ (goodStep_add_event s tid _ now)
          (goodStep_same _ _ rfl rfl)
      · simp only [applyOp, register_child_task, he]
        exact goodStep_same s s rfl rfl
  | updateState tid st now =>
      exact goodStep_update_task_state s tid st now
  | pollStart tid now =>
      by_cases he : s.enabled
      · simp only [applyOp, poll_started, he, if_true]
        exact goodStep_trans _ _ _ (goodStep_update_task_state s tid _ now)
          (goodStep_add_event _ tid _ now)
      · simp only [applyOp, poll_started, he]
        exact goodStep_same s s rfl rfl
  | pollEnd tid dur now =>
      by_cases he : s.enabled
      · simp only [applyOp, poll_ended, he, if_true]
        exact goodStep_trans _ _ _ (goodStep_same s _ rfl rfl)
          (goodStep_add_event _ tid _ now)
      · simp only [applyOp, poll_ended, he]
        exact goodStep_same s s rfl rfl
  | awaitStart tid point loc now =>
      by_cases he : s.enabled
      · simp only [applyOp, await_started, he, if_true]
        exact goodStep_trans _ _ _ (goodStep_update_task_state s tid _ now)
          (goodStep_add_event _ tid _ now)
      · simp only [applyOp, await_started, he]
        exact goodStep_same s s rfl rfl
  | awaitEnd tid point dur now =>
      by_cases he : s.enabled
      · simp only [applyOp, await_ended, he, if_true]
        exact goodStep_add_event s tid _ now
      · simp only [applyOp, await_ended, he]
        exact goodStep_same s s rfl rfl
  | complete tid now =>
      by_cases he : s.enabled
      · cases hl : lookupA s.tasks tid with
        | none =>
            simp only [applyOp, task_completed, he, if_true, hl]
            exact goodStep_same s s rfl rfl
        | some task =>
            simp only [applyOp, task_completed, he, if_true, hl]
            exact goodStep_trans _ _ _ (goodStep_update_task_state s tid _ now)
              (goodStep_add_event _ tid _ now)
      · simp only [applyOp, task_completed, he]
        exact goodStep_same s s rfl rfl
  | failTask tid err now =>
      by_cases he : s.enabled
      · simp only [applyOp, task_failed, he, if_true]
        exact goodStep_trans _ _ _ (goodStep_update_task_state s tid _ now)
          (goodStep_add_event _ tid _ now)
      · simp only [applyOp, task_failed, he]
        exact goodStep_same s s rfl rfl
  | inspect tid label msg now =>
      by_cases he : s.enabled
      · simp only [applyOp, inspection_point, he, if_true]
        exact goodStep_add_event s tid _ now
      · simp only [applyOp, inspection_point, he]
        exact goodStep_same s s rfl rfl
  | clear => exact absurd rfl h
  | enable => exact goodStep_same s _ rfl rfl
  | disable => exact goodStep_same s _ rfl rfl

theorem appendedBy_eq (s : InspectorState) (op : IOp) (new : List Event)
    (hev : (applyOp s op).timeline.events = s.timeline.events ++ new) :
    appendedBy s op = new := by
  rw [appendedBy, hev, List.drop_left]

theorem runTrace_bounds (ops : List IOp) :
    ∀ s : InspectorState, IOp.clear ∉ ops →
      s.event_counter ≤ (runTrace s ops).1.event_counter
      ∧ (∀ e ∈ (runTrace s ops).2,
          s.event_counter ≤ e.id ∧ e.id < (runTrace s ops).1.event_counter)
      ∧ (runTrace s ops).2.Pairwise (fun a b => a.id < b.id) := by
  induction ops with
  | nil =>
      intro s _
      refine ⟨le_refl _, ?_, ?_⟩ <;> simp [runTrace]
  | cons op rest ih =>
      intro s hcl
      have hop : op ≠ IOp.clear := by
        intro hh
        exact hcl (hh ▸ List.mem_cons_self op rest)
      have hrest : IOp.clear ∉ rest := fun hh => hcl (List.mem_cons_of_mem op hh)
      obtain ⟨hc, new, hev, hbnd, hpw⟩ := applyOp_good s op hop
      obtain ⟨ihc, ihbnd, ihpw⟩ := ih (applyOp s op) hrest
      have happ : appendedBy s op = new := appendedBy_eq s op new hev
      refine ⟨?_, ?_, ?_⟩
      · simp only [runTrace]
        exact le_trans hc ihc
      · intro e he
        simp only [runTrace, happ] at he
        simp only [runTrace]
        rcases List.mem_append.mp he with h | h
        · exact ⟨(hbnd e h).1, lt_of_lt_of_le (hbnd e h).2 ihc⟩
        · exact ⟨le_trans hc (ihbnd e h).1, (ihbnd e h).2⟩
      · simp only [runTrace, happ]
        rw [List.pairwise_append]
        refine ⟨hpw, ihpw, ?_⟩
        intro a ha b hb
        exact lt_of_lt_of_le (hbnd a ha).2 (ihbnd b hb).1

/-- **C5 (amended).** For every sequence of inspector operations that does
not contain `clear`, the ids of the events appended along the run are
strictly increasing in append order; and the id an `add_event` assigns is
the inspector's own event counter, whatever the task id — event ids are
allocated independently of task identifiers.  (`clear` resets the event
counter to `1`, so monotonicity does not extend across a `clear`; see the
counterexample.) -/
theorem C5_event_ids_monotone (s : InspectorState) (ops : List IOp)
    (h : IOp.clear ∉ ops) :
    (runTrace s ops).2.Pairwise (fun a b => a.id < b.id)
    ∧ ∀ tid kind now,
        (add_event s tid kind now).timeline.events.map (fun e => e.id)
          = s.timeline.events.map (fun e => e.id) ++ [s.event_counter] := by
  refine ⟨(runTrace_bounds ops s h).2.2, ?_⟩
  intro tid kind now
  simp [add_event, Timeline.add_event]

/-- **C5 witness**: two recording calls on a fresh inspector produce events
with strictly increasing ids. -/
theorem C5_event_ids_monotone_witness :
    (runTrace Inspector.new
      [IOp.inspect 1 "a" none 0, IOp.inspect 2 "b" none 3]).2.Pairwise
      (fun a b => a.id < b.id) :=
  (C5_event_ids_monotone Inspector.new
    [IOp.inspect 1 "a" none 0, IOp.inspect 2 "b" none 3] (by decide)).1

/-- **C5 counterexample.** Across a sequence containing `clear()`, appended
event ids are not monotonically increasing: `clear` stores `1` back into the
event counter, so the event appended after the `clear` reuses id `1`, which
is not greater than the id of the event appended before it. -/
theorem C5_clear_resets_ids :
    ¬ (runTrace Inspector.new
        [IOp.inspect 1 "a" none 0, IOp.clear, IOp.inspect 1 "a" none 0]).2.Pairwise
      (fun a b => a.id < b.id) := by decide

theorem awaitPairStep_len (acc : List Duration × List (String × Instant))
    (e : Event) : (awaitPairStep acc e).1.length ≤ acc.1.length + 1 := by
  cases hk : e.kind <;> simp only [awaitPairStep, hk]
  case AwaitEnded p d =>
    cases hl : lookupA acc.2 p <;> simp [hl]
  all_goals simp

theorem awaitPairStep_fst_of_not_end (acc : List Duration × List (String × Instant))
    (e : Event) (h : e.kind.isAwaitEnd = false) : (awaitPairStep acc e).1 = acc.1 := by
  cases hk : e.kind <;> simp only [awaitPairStep, hk]
  case AwaitEnded p d =>
    rw [hk] at h
    simp [EventKind.isAwaitEnd] at h

theorem awaitPairStep_skip (acc : List Duration × List (String × Instant))
    (e : Event) (h : e.kind.isAwait = false) : awaitPairStep acc e = acc := by
  cases hk : e.kind <;> simp only [awaitPairStep, hk] <;> rw [hk] at h <;>
    simp [EventKind.isAwait] at h

theorem foldl_awaitPairStep_skip (l : List Event)
    (h : ∀ e ∈ l, e.kind.isAwait = false) :
    ∀ acc, l.foldl awaitPairStep acc = acc := by
  induction l with
  | nil => intro acc; rfl
  | cons e rest ih =>
      intro acc
      rw [List.foldl_cons, awaitPairStep_skip acc e (h e (by simp))]
      exact ih (fun x hx => h x (by simp [hx])) acc

theorem awaitPair_length_le (events : List Event) :
    ∀ acc : List Duration × List (String × Instant),
      ((events.foldl awaitPairStep acc).1).length
        ≤ acc.1.length + (events.filter (fun e => e.kind.isAwaitEnd)).length := by
  induction events with
  | nil => intro acc; simp
  | cons e rest ih =>
      intro acc
      rw [List.foldl_cons]
      have h1 := ih (awaitPairStep acc e)
      by_cases hend : e.kind.isAwaitEnd = true
      · have h2 := awaitPairStep_len acc e
        simp only [List.filter_cons, hend, if_true, List.length_cons]
        omega
      · have hend' : e.kind.isAwaitEnd = false := by
          cases h' : e.kind.isAwaitEnd
          · rfl
          · exact absurd h' hend
        have h2 := awaitPairStep_fst_of_not_end acc e hend'
        rw [h2] at h1
        simp only [List.filter_cons, hend']
        simpa using h1

/-- **C3 (amended).** The profiler's await pairing:
(i) `build_profiler` gives every task the pairing of its own events,
`await_count` being exactly the number of samples;
(ii) each sample is produced by an `AwaitEnded` that consumes the pending
start of its label, so there are never more samples than `AwaitEnded` events
— an unmatched (or overwritten) start contributes no sample;
(iii) in particular, a task whose await events are exactly one
`AwaitStarted{label}` followed by one `AwaitEnded{label}` gets exactly one
sample, equal to the timestamp gap between the two events. -/
theorem C3_await_pairing :
    (∀ (s : InspectorState) (now : Instant), ∀ m ∈ build_profiler s now,
        m.await_durations = pairAwaitDurations
          (s.timeline.events.filter (fun e => decide (e.task_id = m.task_id)))
        ∧ m.await_count = m.await_durations.length)
    ∧ (∀ events : List Event,
        (pairAwaitDurations events).length
          ≤ (events.filter (fun e => e.kind.isAwaitEnd)).length)
    ∧ (∀ (l1 l2 l3 : List Event) (e1 e2 : Event) (label : String)
        (loc : Option String) (d : Duration),
        e1.kind = EventKind.AwaitStarted label loc →
        e2.kind = EventKind.AwaitEnded label d →
        (∀ e ∈ l1, e.kind.isAwait = false) →
        (∀ e ∈ l2, e.kind.isAwait = false) →
        (∀ e ∈ l3, e.kind.isAwait = false) →
        pairAwaitDurations (l1 ++ e1 :: (l2 ++ e2 :: l3))
          = [durationSince e2.timestamp e1.timestamp]) := by
  refine ⟨?_, ?_, ?_⟩
  · intro s now m hm
    simp only [build_profiler, List.mem_map] at hm
    obtain ⟨p, hp, rfl⟩ := hm
    exact ⟨rfl, rfl⟩
  · intro events
    simpa using awaitPair_length_le events ([], [])
  · intro l1 l2 l3 e1 e2 label loc d hk1 hk2 h1 h2 h3
    rw [pairAwaitDurations, List.foldl_append,
      foldl_awaitPairStep_skip l1 h1, List.foldl_cons]
    have hstep1 : awaitPairStep ([], []) e1
        = ([], [(label, e1.timestamp)]) := by
      simp [awaitPairStep, hk1, insertOrReplace]
    rw [hstep1, List.foldl_append, foldl_awaitPairStep_skip l2 h2,
      List.foldl_cons]
    have hstep2 : awaitPairStep ([], [(label, e1.timestamp)]) e2
        = ([durationSince e2.timestamp e1.timestamp], []) := by
      simp [awaitPairStep, hk2, lookupA, removeA]
    rw [hstep2, foldl_awaitPairStep_skip l3 h3]

/-- **C3 witness**: one start at `t = 10` and one end at `t = 30` for the
same label yield the single sample `20`. -/
theorem C3_await_pairing_witness :
    pairAwaitDurations [⟨1, 1, 10, EventKind.AwaitStarted "l" none⟩,
      ⟨2, 1, 30, EventKind.AwaitEnded "l" 7⟩] = [20] := by
  have h := C3_await_pairing.2.2 [] [] []
    ⟨1, 1, 10, EventKind.AwaitStarted "l" none⟩
    ⟨2, 1, 30, EventKind.AwaitEnded "l" 7⟩ "l" none 7 rfl rfl
    (by simp) (by simp) (by simp)
  simpa using h

/-- **C3 counterexample.** For the event sequence start, start, end, end on
one label, the claimed "most recent unmatched" pairing would match the
second `AwaitEnded` to the still-unmatched first start (two samples:
`[10, 40]`), but the code's `HashMap` overwrite leaves the first start
unmatchable, producing the single sample `[10]`. -/
theorem C3_most_recent_unmatched_fails :
    ((build_profiler (runTrace Inspector.new
        [IOp.register "t" 1 0,
         IOp.awaitStart 1 "l" none 10,
         IOp.awaitStart 1 "l" none 20,
         IOp.awaitEnd 1 "l" 0 30,
         IOp.awaitEnd 1 "l" 0 50]).1 100).map (fun m => m.await_durations)
      = [[10]])
    ∧ (pairAwaitDurationsSpec (((runTrace Inspector.new
        [IOp.register "t" 1 0,
         IOp.awaitStart 1 "l" none 10,
         IOp.awaitStart 1 "l" none 20,
         IOp.awaitEnd 1 "l" 0 30,
         IOp.awaitEnd 1 "l" 0 50]).1).timeline.events_for_task 1)
      = [10, 40])
    ∧ ([[10]] : List (List Duration)) ≠ [[10, 40]] := by
  refine ⟨by decide, by decide, by decide⟩

theorem sortBy_spec {α κ : Type _} [DecidableEq κ] (le : α → α → Bool) (key : α → κ)
    (htot : ∀ a b, le a b = true ∨ le b a = true)
    (htrans : ∀ a b c, le a b = true → le b c = true → le a c = true)
    (hrefl : ∀ a b, key a = key b → le a b = true) (l : List α) :
    (sortBy le l).Perm l
    ∧ (sortBy le l).Pairwise (fun a b => le a b = true)
    ∧ ∀ k : κ, (sortBy le l).filter (fun m => decide (key m = k))
        = l.filter (fun m => decide (key m = k)) := by
  refine ⟨sortBy_perm le l, sortBy_sorted le htot htrans l, ?_⟩
  intro k
  refine sortBy_filter_stable le _ ?_ l
  intro a b ha hb
  rw [decide_eq_true_eq] at ha hb
  exact hrefl a b (ha.trans hb.symm)

/-- **C6 (amended).** The four ranking queries are pure stable-sort-and-
truncate operations over the metrics/hot-path value sequence: each returns a
prefix (after truncation) of a permutation of its input that is sorted by
the respective key, and among elements whose key compares equal the sorted
sequence preserves the *input sequence* order (the `HashMap` value iteration
order, which is not registration order — see the counterexample).
`identify_bottlenecks` is an order-preserving threshold filter. -/
theorem C6_rankings_sort_truncate (metrics : List TaskMetrics)
    (paths : List HotPath) (count : Nat) (threshold_ms : Nat) :
    (∃ st : List TaskMetrics, st.Perm metrics
      ∧ st.Pairwise (fun a b => b.total_duration ≤ a.total_duration)
      ∧ (∀ d : Duration, st.filter (fun m => decide (m.total_duration = d))
          = metrics.filter (fun m => decide (m.total_duration = d)))
      ∧ slowest_tasks metrics count = st.take count)
    ∧ (∃ st : List TaskMetrics, st.Perm metrics
      ∧ st.Pairwise (fun a b => b.poll_count ≤ a.poll_count)
      ∧ (∀ n : Nat, st.filter (fun m => decide (m.poll_count = n))
          = metrics.filter (fun m => decide (m.poll_count = n)))
      ∧ busiest_tasks metrics count = st.take count)
    ∧ (∃ st : List TaskMetrics, st.Perm metrics
      ∧ st.Pairwise (fun a b => a.efficiency ≤ b.efficiency)
      ∧ (∀ q : ℚ, st.filter (fun m => decide (m.efficiency = q))
          = metrics.filter (fun m => decide (m.efficiency = q)))
      ∧ least_efficient_tasks metrics count = st.take count)
    ∧ (∃ st : List HotPath, st.Perm paths
      ∧ st.Pairwise (fun a b => b.execution_count ≤ a.execution_count)
      ∧ (∀ n : Nat, st.filter (fun m => decide (m.execution_count = n))
          = paths.filter (fun m => decide (m.execution_count = n)))
      ∧ get_hot_paths paths = st)
    ∧ ((identify_bottlenecks metrics threshold_ms).Sublist metrics
      ∧ ∀ m, m ∈ identify_bottlenecks metrics threshold_ms
          ↔ m ∈ metrics ∧ m.is_bottleneck threshold_ms = true) := by
  have hslow := sortBy_spec
    (fun (a b : TaskMetrics) => decide (b.total_duration ≤ a.total_duration))
    (fun m => m.total_duration)
    (fun a b => by
      rcases Nat.le_total b.total_duration a.total_duration with h | h
      · exact Or.inl (decide_eq_true h)
      · exact Or.inr (decide_eq_true h))
    (fun a b c h1 h2 => decide_eq_true
      (Nat.le_trans (of_decide_eq_true h2) (of_decide_eq_true h1)))
    (fun a b h => decide_eq_true (le_of_eq h.symm))
    metrics
  have hbusy := sortBy_spec
    (fun (a b : TaskMetrics) => decide (b.poll_count ≤ a.poll_count))
    (fun m => m.poll_count)
    (fun a b => by
      rcases Nat.le_total b.poll_count a.poll_count with h | h
      · exact Or.inl (decide_eq_true h)
      · exact Or.inr (decide_eq_true h))
    (fun a b c h1 h2 => decide_eq_true
      (Nat.le_trans (of_decide_eq_true h2) (of_decide_eq_true h1)))
    (fun a b h => decide_eq_true (le_of_eq h.symm))
    metrics
  have heff := sortBy_spec
    (fun (a b : TaskMetrics) => decide (a.efficiency ≤ b.efficiency))
    (fun m => m.efficiency)
    (fun a b => by
      rcases le_total a.efficiency b.efficiency with h | h
      · exact Or.inl (decide_eq_true h)
      · exact Or.inr (decide_eq_true h))
    (fun a b c h1 h2 => decide_eq_true
      (le_trans (of_decide_eq_true h1) (of_decide_eq_true h2)))
    (fun a b h => decide_eq_true (le_of_eq h))
    metrics
  have hhot := sortBy_spec
    (fun (a b : HotPath) => decide (b.execution_count ≤ a.execution_count))
    (fun m => m.execution_count)
    (fun a b => by
      rcases Nat.le_total b.execution_count a.execution_count with h | h
      · exact Or.inl (decide_eq_true h)
      · exact Or.inr (decide_eq_true h))
    (fun a b c h1 h2 => decide_eq_true
      (Nat.le_trans (of_decide_eq_true h2) (of_decide_eq_true h1)))
    (fun a b h => decide_eq_true (le_of_eq h.symm))
    paths
  refine ⟨⟨_, hslow.1, hslow.2.1.imp (fun h => of_decide_eq_true h), hslow.2.2, rfl⟩,
    ⟨_, hbusy.1, hbusy.2.1.imp (fun h => of_decide_eq_true h), hbusy.2.2, rfl⟩,
    ⟨_, heff.1, heff.2.1.imp (fun h => of_decide_eq_true h), heff.2.2, rfl⟩,
    ⟨_, hhot.1, hhot.2.1.imp (fun h => of_decide_eq_true h), hhot.2.2, rfl⟩,
    List.filter_sublist metrics, ?_⟩
  intro m
  simp [identify_bottlenecks]

/-- **C6 counterexample.** Two metrics with equal `total_duration`: if the
`HashMap` yields its values in the order `[task 2, task 1]` while
registration order was task 1 first, `slowest_tasks` returns the tie in map
iteration order `[2, 1]`, not registration order `[1, 2]` — the stable sort
preserves whatever order the map iterates in, and `HashMap` iteration order
is unrelated to insertion order. -/
theorem C6_tie_break_not_registration_order :
    slowest_tasks [{ TaskMetrics.new 2 "b" with total_duration := 5 },
        { TaskMetrics.new 1 "a" with total_duration := 5 }] 2
      = [{ TaskMetrics.new 2 "b" with total_duration := 5 },
         { TaskMetrics.new 1 "a" with total_duration := 5 }]
    ∧ slowest_tasks [{ TaskMetrics.new 2 "b" with total_duration := 5 },
        { TaskMetrics.new 1 "a" with total_duration := 5 }] 2
      ≠ [{ TaskMetrics.new 1 "a" with total_duration := 5 },
         { TaskMetrics.new 2 "b" with total_duration := 5 }] := by
  refine ⟨by decide, by decide⟩

theorem flp_succ (g : TaskGraph) (fuel : Nat) (t : TaskId) (visited : List TaskId) :
    find_longest_path g (fuel + 1) t visited
      = if t ∈ visited then []
        else (g.adjacency t).foldl (flpStep g fuel t visited) [t] := rfl

theorem fcp_eq (g : TaskGraph) :
    find_critical_path g = (g.tasks.map Prod.fst).foldl (fcpStep g) [] := rfl

theorem flpStep_len_ge (g : TaskGraph) (fuel : Nat) (t : TaskId)
    (visited : List TaskId) (longest : List TaskId) (nr : TaskId × RelationshipType) :
    longest.length ≤ (flpStep g fuel t visited longest nr).length := by
  unfold flpStep
  by_cases hc : nr.2.isCritical
  · simp only [hc, if_true]
    by_cases hl : longest.length
        < (find_longest_path g fuel nr.1 (t :: visited)).length + 1
    · rw [if_pos hl]
      simp only [List.length_cons]
      omega
    · rw [if_neg hl]
  · simp [hc]

theorem foldl_flpStep_len_ge_init (g : TaskGraph) (fuel : Nat) (t : TaskId)
    (visited : List TaskId) (adj : List (TaskId × RelationshipType)) :
    ∀ init : List TaskId,
      init.length ≤ (adj.foldl (flpStep g fuel t visited) init).length := by
  induction adj with
  | nil => intro init; simp
  | cons a rest ih =>
      intro init
      rw [List.foldl_cons]
      exact le_trans (flpStep_len_ge g fuel t visited init a) (ih _)

theorem foldl_flpStep_len_ge_cand (g : TaskGraph) (fuel : Nat) (t : TaskId)
    (visited : List TaskId) (adj : List (TaskId × RelationshipType))
    (nr : TaskId × RelationshipType) (hmem : nr ∈ adj)
    (hcrit : nr.2.isCritical = true) :
    ∀ init : List TaskId,
      (find_longest_path g fuel nr.1 (t :: visited)).length + 1
        ≤ (adj.foldl (flpStep g fuel t visited) init).length := by
  induction adj with
  | nil => cases hmem
  | cons a rest ih =>
      intro init
      rw [List.foldl_cons]
      rcases List.mem_cons.mp hmem with rfl | hmem'
      · have hstep : (find_longest_path g fuel nr.1 (t :: visited)).length + 1
            ≤ (flpStep g fuel t visited init nr).length := by
          unfold flpStep
          rw [if_pos hcrit]
          by_cases hl : init.length
              < (find_longest_path g fuel nr.1 (t :: visited)).length + 1
          · rw [if_pos hl]
            simp
          · rw [if_neg hl]
            omega
        exact le_trans hstep (foldl_flpStep_len_ge_init g fuel t visited rest _)
      · exact ih hmem' _

theorem adjacency_critAdj (g : TaskGraph) (t : TaskId) :
    ∀ nr ∈ g.adjacency t, nr.2.isCritical = true → critAdj g t nr.1 := by
  intro nr hmem hcrit
  simp only [TaskGraph.adjacency, List.mem_map, List.mem_filter,
    decide_eq_true_eq] at hmem
  obtain ⟨r, ⟨hrmem, hfrom⟩, heq⟩ := hmem
  refine ⟨r, hrmem, hfrom, ?_, ?_⟩
  · rw [← heq]
  · rw [← heq] at hcrit
    exact hcrit

theorem critAdj_mem_adjacency (g : TaskGraph) (t n : TaskId) (h : critAdj g t n) :
    ∃ rt, (n, rt) ∈ g.adjacency t ∧ rt.isCritical = true := by
  obtain ⟨r, hr, hfrom, hto, hcrit⟩ := h
  refine ⟨r.relationship_type, ?_, hcrit⟩
  simp only [TaskGraph.adjacency, List.mem_map, List.mem_filter,
    decide_eq_true_eq]
  exact ⟨r, ⟨hr, hfrom⟩, by rw [hto]⟩

theorem foldl_flpStep_sound (g : TaskGraph) (fuel : Nat) (t : TaskId)
    (visited : List TaskId) (ht : t ∉ visited)
    (hrec : ∀ n, find_longest_path g fuel n (t :: visited) = []
        ∨ ((find_longest_path g fuel n (t :: visited)).head? = some n
           ∧ List.Chain' (critAdj g) (find_longest_path g fuel n (t :: visited))
           ∧ ∀ x ∈ find_longest_path g fuel n (t :: visited), x ∉ t :: visited)) :
    ∀ (adj : List (TaskId × RelationshipType)),
      (∀ nr ∈ adj, nr.2.isCritical = true → critAdj g t nr.1) →
      ∀ init : List TaskId,
        (init.head? = some t ∧ List.Chain' (critAdj g) init
          ∧ ∀ x ∈ init, x ∉ visited) →
        ((adj.foldl (flpStep g fuel t visited) init).head? = some t
          ∧ List.Chain' (critAdj g) (adj.foldl (flpStep g fuel t visited) init)
          ∧ ∀ x ∈ adj.foldl (flpStep g fuel t visited) init, x ∉ visited) := by
  intro adj
  induction adj with
  | nil => intro _ init hq; exact hq
  | cons a rest ih =>
      intro hadj init hq
      rw [List.foldl_cons]
      refine ih (fun nr hnr => hadj nr (by simp [hnr])) _ ?_
      unfold flpStep
      by_cases hc : a.2.isCritical
      · simp only [hc, if_true]
        by_cases hl : init.length
            < (find_longest_path g fuel a.1 (t :: visited)).length + 1
        · rw [if_pos hl]
          rcases hrec a.1 with hnil | ⟨hhead, hchain, havoid⟩
          · rw [hnil]
            exact ⟨rfl, List.chain'_singleton t, by
              intro x hx
              rw [List.mem_singleton] at hx
              subst hx
              exact ht⟩
          · refine ⟨rfl, ?_, ?_⟩
            · cases hpath : find_longest_path g fuel a.1 (t :: visited) with
              | nil => exact List.chain'_singleton t
              | cons n0 prest =>
                  rw [hpath] at hhead hchain
                  have hn0 : n0 = a.1 := by simpa using hhead
                  rw [List.chain'_cons]
                  refine ⟨?_, hchain⟩
                  rw [hn0]
                  exact hadj a (by simp) hc
            · intro x hx
              rcases List.mem_cons.mp hx with rfl | hx'
              · exact ht
              · exact fun hv => havoid x hx' (by simp [hv])
        · rw [if_neg hl]
          exact hq
      · simp only [hc]
        simp only [Bool.false_eq_true, if_false]
        exact hq

theorem flp_sound (g : TaskGraph) : ∀ (fuel : Nat) (t : TaskId) (visited : List TaskId),
    find_longest_path g fuel t visited = []
    ∨ ((find_longest_path g fuel t visited).head? = some t
       ∧ List.Chain' (critAdj g) (find_longest_path g fuel t visited)
       ∧ ∀ x ∈ find_longest_path g fuel t visited, x ∉ visited) := by
  intro fuel
  induction fuel with
  | zero => intro t visited; exact Or.inl rfl
  | succ fuel ih =>
      intro t visited
      by_cases ht : t ∈ visited
      · exact Or.inl (by rw [flp_succ, if_pos ht])
      · right
        rw [flp_succ, if_neg ht]
        refine foldl_flpStep_sound g fuel t visited ht (fun n => ih n (t :: visited))
          (g.adjacency t) (adjacency_critAdj g t) [t]
          ⟨rfl, List.chain'_singleton t, ?_⟩
        intro x hx
        rw [List.mem_singleton] at hx
        subst hx
        exact ht

theorem chain'_head_transGen {α : Type _} (R : α → α → Prop) :
    ∀ (l : List α) (a : α), List.Chain' R (a :: l) →
      ∀ x ∈ l, Relation.TransGen R a x := by
  intro l
  induction l with
  | nil => intro a _ x hx; cases hx
  | cons b t ih =>
      intro a h x hx
      have hab : R a b := (List.chain'_cons.mp h).1
      have ht : List.Chain' R (b :: t) := (List.chain'_cons.mp h).2
      rcases List.mem_cons.mp hx with rfl | hx'
      · exact Relation.TransGen.single hab
      · exact Relation.TransGen.head hab (ih b ht x hx')

theorem chain'_tail_mem_targets (g : TaskGraph) :
    ∀ (l : List TaskId) (a : TaskId), List.Chain' (critAdj g) (a :: l) →
      ∀ x ∈ l, x ∈ g.relationships.map Relationship.to_ := by
  intro l
  induction l with
  | nil => intro a _ x hx; cases hx
  | cons b t ih =>
      intro a h x hx
      have hab : critAdj g a b := (List.chain'_cons.mp h).1
      have ht : List.Chain' (critAdj g) (b :: t) := (List.chain'_cons.mp h).2
      rcases List.mem_cons.mp hx with rfl | hx'
      · obtain ⟨r, hr, _, hto, _⟩ := hab
        exact List.mem_map.mpr ⟨r, hr, hto⟩
      · exact ih b ht x hx'

theorem critChain_nodup (g : TaskGraph) (hacyc : CritAcyclic g) :
    ∀ c : List TaskId, List.Chain' (critAdj g) c → c.Nodup := by
  intro c
  induction c with
  | nil => intro _; simp
  | cons a l ih =>
      intro h
      refine List.nodup_cons.mpr ⟨?_, ih h.tail⟩
      intro ha
      exact hacyc a (chain'_head_transGen (critAdj g) l a h a ha)

theorem critChain_length_le (g : TaskGraph) (hacyc : CritAcyclic g)
    (c : List TaskId) (hchain : List.Chain' (critAdj g) c) :
    c.length ≤ g.relationships.length + 1 := by
  cases c with
  | nil => simp
  | cons a l =>
      have hnd : (a :: l).Nodup := critChain_nodup g hacyc _ hchain
      have hsub : l ⊆ g.relationships.map Relationship.to_ :=
        fun x hx => chain'_tail_mem_targets g l a hchain x hx
      have hlen : l.length ≤ (g.relationships.map Relationship.to_).length :=
        ((List.nodup_cons.mp hnd).2.subperm hsub).length_le
      rw [List.length_map] at hlen
      simp only [List.length_cons]
      omega

theorem flp_complete (g : TaskGraph) (hacyc : CritAcyclic g) :
    ∀ (fuel : Nat) (c : List TaskId) (t : TaskId) (visited : List TaskId),
      c.length ≤ fuel →
      c.head? = some t →
      List.Chain' (critAdj g) c →
      (∀ x ∈ c, x ∉ visited) →
      c.length ≤ (find_longest_path g fuel t visited).length := by
  intro fuel
  induction fuel with
  | zero =>
      intro c t visited hlen hhead _ _
      cases c with
      | nil => simp at hhead
      | cons a l => simp at hlen
  | succ fuel ih =>
      intro c t visited hlen hhead hchain havoid
      cases c with
      | nil => simp at hhead
      | cons t0 c' =>
          have ht0 : t0 = t := by simpa using hhead
          subst ht0
          have ht : t0 ∉ visited := havoid t0 (by simp)
          rw [flp_succ, if_neg ht]
          cases c' with
          | nil =>
              have := foldl_flpStep_len_ge_init g fuel t0 visited
                (g.adjacency t0) [t0]
              simpa using this
          | cons n rest =>
              have hadj : critAdj g t0 n := (List.chain'_cons.mp hchain).1
              obtain ⟨rt, hmem, hcrit⟩ := critAdj_mem_adjacency g t0 n hadj
              have hchain' : List.Chain' (critAdj g) (n :: rest) :=
                (List.chain'_cons.mp hchain).2
              have havoid' : ∀ x ∈ n :: rest, x ∉ t0 :: visited := by
                intro x hx
                rw [List.mem_cons]
                rintro (rfl | hxv)
                · exact hacyc x (chain'_head_transGen (critAdj g) (n :: rest)
                    x hchain x hx)
                · exact havoid x (by simp [hx]) hxv
              have hlen' : (n :: rest).length ≤ fuel := by
                simp only [List.length_cons] at hlen ⊢
                omega
              have hrec := ih (n :: rest) n (t0 :: visited) hlen' rfl hchain' havoid'
              have hcand := foldl_flpStep_len_ge_cand g fuel t0 visited
                (g.adjacency t0) (n, rt) hmem hcrit [t0]
              simp only [List.length_cons] at hrec hcand ⊢
              omega

theorem fcpStep_len_ge (g : TaskGraph) (l : List TaskId) (t : TaskId) :
    l.length ≤ (fcpStep g l t).length := by
  unfold fcpStep
  by_cases hl : l.length < (find_longest_path g (g.relationships.length + 2) t []).length
  · rw [if_pos hl]
    omega
  · rw [if_neg hl]

theorem foldl_fcpStep_len_ge_init (g : TaskGraph) (keys : List TaskId) :
    ∀ init : List TaskId, init.length ≤ (keys.foldl (fcpStep g) init).length := by
  induction keys with
  | nil => intro init; simp
  | cons a rest ih =>
      intro init
      rw [List.foldl_cons]
      exact le_trans (fcpStep_len_ge g init a) (ih _)

theorem foldl_fcpStep_len_ge_cand (g : TaskGraph) (keys : List TaskId)
    (t : TaskId) (hmem : t ∈ keys) :
    ∀ init : List TaskId,
      (find_longest_path g (g.relationships.length + 2) t []).length
        ≤ (keys.foldl (fcpStep g) init).length := by
  induction keys with
  | nil => cases hmem
  | cons a rest ih =>
      intro init
      rw [List.foldl_cons]
      rcases List.mem_cons.mp hmem with rfl | hmem'
      · have hstep : (find_longest_path g (g.relationships.length + 2) t []).length
            ≤ (fcpStep g init t).length := by
          unfold fcpStep
          by_cases hl : init.length
              < (find_longest_path g (g.relationships.length + 2) t []).length
          · rw [if_pos hl]
          · rw [if_neg hl]
            omega
        exact le_trans hstep (foldl_fcpStep_len_ge_init g rest _)
      · exact ih hmem' _

theorem foldl_fcpStep_sound (g : TaskGraph) (keys : List TaskId) :
    ∀ init : List TaskId,
      keys.foldl (fcpStep g) init = init
      ∨ ∃ t ∈ keys, keys.foldl (fcpStep g) init
          = find_longest_path g (g.relationships.length + 2) t [] := by
  induction keys with
  | nil => intro init; exact Or.inl rfl
  | cons a rest ih =>
      intro init
      rw [List.foldl_cons]
      rcases ih (fcpStep g init a) with h | ⟨t, ht, h⟩
      · rw [h]
        unfold fcpStep
        by_cases hl : init.length
            < (find_longest_path g (g.relationships.length + 2) a []).length
        · rw [if_pos hl]
          exact Or.inr ⟨a, by simp, rfl⟩
        · rw [if_neg hl]
          exact Or.inl rfl
      · exact Or.inr ⟨t, by simp [ht], h⟩

/-- **C2.** For every relationship graph acyclic along the critical edge
types (`Dependency`, `DataFlow`, `AwaitsOn`), `find_critical_path` returns a
list that (i) is at least as long as every chain that starts at a task of
the graph and follows only critical edges — so its length equals the length
of the longest such chain — and (ii) is itself such a chain (or empty when
there is none): in particular, edges of every other relationship type are
never followed. -/
theorem C2_critical_path (g : TaskGraph) (hacyc : CritAcyclic g) :
    (∀ c, CritChain g c → c.length ≤ (find_critical_path g).length)
    ∧ (find_critical_path g = [] ∨ CritChain g (find_critical_path g)) := by
  constructor
  · intro c hc
    obtain ⟨hne, hhead, hchain⟩ := hc
    cases c with
    | nil => exact absurd rfl hne
    | cons t c' =>
        have hkey : t ∈ g.tasks.map Prod.fst := hhead t rfl
        have hbound : (t :: c').length ≤ g.relationships.length + 2 := by
          have := critChain_length_le g hacyc (t :: c') hchain
          omega
        have hflp := flp_complete g hacyc (g.relationships.length + 2)
          (t :: c') t [] hbound rfl hchain (by simp)
        have hcand := foldl_fcpStep_len_ge_cand g (g.tasks.map Prod.fst) t hkey []
        rw [fcp_eq]
        exact le_trans hflp hcand
  · rcases foldl_fcpStep_sound g (g.tasks.map Prod.fst) [] with h | ⟨t, ht, h⟩
    · left
      rw [fcp_eq, h]
    · right
      have hne : find_longest_path g (g.relationships.length + 2) t [] ≠ [] := by
        intro hnil
        have h1 := foldl_flpStep_len_ge_init g (g.relationships.length + 1) t []
          (g.adjacency t) [t]
        have h2 : find_longest_path g (g.relationships.length + 2) t []
            = (g.adjacency t).foldl
                (flpStep g (g.relationships.length + 1) t []) [t] := by
          rw [show g.relationships.length + 2 = (g.relationships.length + 1) + 1 from rfl,
            flp_succ]
          simp
        rw [h2] at hnil
        rw [hnil] at h1
        simp at h1
      rcases flp_sound g (g.relationships.length + 2) t [] with hnil | ⟨hhead, hchain, _⟩
      · exact absurd hnil hne
      · rw [fcp_eq, h]
        refine ⟨hne, ?_, hchain⟩
        intro t' ht'
        rw [hhead] at ht'
        injection ht' with ht'
        subst ht'
        exact ht

/-- **C2 witness**: the spec's three-task linear dependency chain
`1 → 2 → 3`; the computed critical path has length (at least) 3. -/
theorem C2_critical_path_witness :
    (3 : Nat) ≤ (find_critical_path (TaskGraph.mk
      [⟨1, 2, RelationshipType.Dependency, none, none⟩,
       ⟨2, 3, RelationshipType.Dependency, none, none⟩]
      [(1, TaskInfo.new 1 "a" 0), (2, TaskInfo.new 2 "b" 0),
       (3, TaskInfo.new 3 "c" 0)])).length := by
  have hmono : ∀ a b : TaskId, critAdj (TaskGraph.mk
      [⟨1, 2, RelationshipType.Dependency, none, none⟩,
       ⟨2, 3, RelationshipType.Dependency, none, none⟩]
      [(1, TaskInfo.new 1 "a" 0), (2, TaskInfo.new 2 "b" 0),
       (3, TaskInfo.new 3 "c" 0)]) a b → a < b := by
    intro a b h
    obtain ⟨r, hr, hfrom, hto, _⟩ := h
    simp only [List.mem_cons, List.not_mem_nil, or_false] at hr
    rcases hr with rfl | rfl
    · subst hfrom
      subst hto
      decide
    · subst hfrom
      subst hto
      decide
  have hacyc : CritAcyclic (TaskGraph.mk
      [⟨1, 2, RelationshipType.Dependency, none, none⟩,
       ⟨2, 3, RelationshipType.Dependency, none, none⟩]
      [(1, TaskInfo.new 1 "a" 0), (2, TaskInfo.new 2 "b" 0),
       (3, TaskInfo.new 3 "c" 0)]) := by
    intro t ht
    have hlt := Relation.TransGen.mono hmono ht
    have htrans : Transitive (fun a b : TaskId => a < b) :=
      fun x y z hxy hyz => Nat.lt_trans hxy hyz
    rw [Relation.transGen_eq_self htrans] at hlt
    exact lt_irrefl t hlt
  have hchain : List.Chain' (critAdj (TaskGraph.mk
      [⟨1, 2, RelationshipType.Dependency, none, none⟩,
       ⟨2, 3, RelationshipType.Dependency, none, none⟩]
      [(1, TaskInfo.new 1 "a" 0), (2, TaskInfo.new 2 "b" 0),
       (3, TaskInfo.new 3 "c" 0)])) [1, 2, 3] := by
    refine List.chain'_cons.mpr ⟨⟨⟨1, 2, RelationshipType.Dependency, none, none⟩,
      by simp, rfl, rfl, rfl⟩, ?_⟩
    refine List.chain'_cons.mpr ⟨⟨⟨2, 3, RelationshipType.Dependency, none, none⟩,
      by simp, rfl, rfl, rfl⟩, ?_⟩
    exact List.chain'_singleton 3
  have h := (C2_critical_path _ hacyc).1 [1, 2, 3]
    ⟨by simp, by
      intro t' ht'
      simp only [List.head?_cons, Option.some_inj] at ht'
      subst ht'
      simp, hchain⟩
  simpa using h
